import Mathlib

/-!
Verification of the `codebase` code-graph repository.

This file shallowly embeds the core of the repository:

* `src/codebase/code_graph/models.py` — node/edge types, the `VALID_EDGES`
  allow-list, `GraphEdge` construction-time validation, `GraphNode`;
* `src/codebase/code_graph/graph.py` — the NetworkX-backed `CodeGraph`
  (`add_node`, `add_edge`, `build_from_nodes`, `merge_nodes_by_reference`);
* `src/codebase/code_parser/visitor.py` — the `CodeVisitor` AST visitor
  (reference table, node-id computation, import/class/function/call/decorator
  handling) together with the `code_visitor.py` variant where it differs;
* `src/codebase/code_parser/utils.py` — `compute_package_full_path`;
* `src/codebase/code_graph/utils.py` — `build_from_code`, `merge_graphs`,
  `build_project_graph`.

Python dicts are modelled as insertion-ordered association lists, Python
strings as Lean `String`s, and the string-slicing idioms
(`s.split(":", 1)`, `s.rsplit(".", 1)`, `s.split(".")`, `".".join`,
`os.path.splitext`) as executable character-list functions defined below.
External collaborators (the `ast` parser, `find_package_source`'s scan of
`sys.path`, directory enumeration) are parameters of the embedding, exactly
as the spec declares them out of scope.
-/

namespace Codebase

/-! ### Python string helpers

`splitAtFirst c cs` returns the pieces of `cs` before and after the first
occurrence of `c`, or `none` when `c` does not occur — the information
content of Python's `s.split(sep, 1)`. -/

def splitAtFirst (c : Char) : List Char → Option (List Char × List Char)
  | [] => none
  | x :: xs =>
    if x = c then some ([], xs)
    else (splitAtFirst c xs).map (fun p => (x :: p.1, p.2))

/-- `s.split(":", 1)[1]` where the callers either guard the single-element
case with `try/except ValueError` (yielding `""`, as in
`update_reference_table` and `compute_node_id`) or only ever apply it to ids
that contain a colon (as in `merge_nodes_by_reference`'s `score` and
`lookup_node`'s tie-break; theorems about those carry a colon hypothesis). -/
def afterColon (s : String) : String :=
  match splitAtFirst ':' s.data with
  | some p => String.mk p.2
  | none => ""

/-- Python `s.rsplit(".", 1)[0]`: everything before the last dot, or the
whole string when there is no dot. -/
def beforeLastDot (s : String) : String :=
  match splitAtFirst '.' s.data.reverse with
  | some p => String.mk p.2.reverse
  | none => s

/-- Python `s.split(c)` (split at every occurrence). -/
def splitAll (c : Char) : List Char → List (List Char)
  | [] => [[]]
  | x :: xs =>
    if x = c then [] :: splitAll c xs
    else
      match splitAll c xs with
      | [] => [[x]]
      | p :: ps => (x :: p) :: ps

/-- Python `s.split(".")`. -/
def splitDots (s : String) : List String :=
  (splitAll '.' s.data).map String.mk

/-- Python `c.join(pieces)` at the character-list level. -/
def joinCh (c : Char) : List (List Char) → List Char
  | [] => []
  | [x] => x
  | x :: xs => x ++ c :: joinCh c xs

/-- Python `".".join(parts)`. -/
def dotJoin (parts : List String) : String :=
  String.mk (joinCh '.' (parts.map String.data))

/-- Python truthiness of an `Optional[str]`: `None` and `""` are falsy. -/
def truthy : Option String → Bool
  | none => false
  | some s => !s.isEmpty

/-- `os.path.splitext(basename)[0]`: strip the final extension, unless every
character before the last dot is itself a dot (so `".py"` keeps its name). -/
def splitextRoot (s : String) : String :=
  match splitAtFirst '.' s.data.reverse with
  | none => s
  | some p =>
    if p.2.reverse.all (· = '.') then s else String.mk p.2.reverse

/-! ### Insertion-ordered dict model

Python 3 dicts preserve insertion order; updating an existing key keeps its
position. -/

def lookupA {α : Type} (k : String) : List (String × α) → Option α
  | [] => none
  | (k', v) :: rest => if k' = k then some v else lookupA k rest

/-- `d[k] = v` on an insertion-ordered dict. -/
def insertA {α : Type} (k : String) (v : α) : List (String × α) → List (String × α)
  | [] => [(k, v)]
  | (k', v') :: rest =>
    if k' = k then (k, v) :: rest else (k', v') :: insertA k v rest

/-! ### Entity model — `src/codebase/code_graph/models.py` -/

/-- `NodeType` (models.py lines 11-16). -/
inductive NodeType where
  | MODULE | PACKAGE | CLASS | FUNCTION | VARIABLE
deriving DecidableEq, Repr

/-- `EdgeType` (models.py lines 19-26). -/
inductive EdgeType where
  | CONTAINS | IMPORTS | INHERITS | COMPOSES | CALLS | REFERENCES | DECORATES
deriving DecidableEq, Repr

/-- The `StrEnum` value of a `NodeType`, used as the id prefix. -/
def NodeType.value : NodeType → String
  | .MODULE => "module"
  | .PACKAGE => "package"
  | .CLASS => "class"
  | .FUNCTION => "function"
  | .VARIABLE => "variable"

/-- The `StrEnum` value of an `EdgeType`. -/
def EdgeType.value : EdgeType → String
  | .CONTAINS => "contains"
  | .IMPORTS => "imports"
  | .INHERITS => "inherits"
  | .COMPOSES => "composes"
  | .CALLS => "calls"
  | .REFERENCES => "references"
  | .DECORATES => "decorates"

/-- `VALID_EDGES` (models.py lines 33-71).  The Python dict maps every
`EdgeType` to a list of `(source NodeType, target NodeType)` pairs, so
`VALID_EDGES.get(edge_type, [])` is plain application of this function. -/
def VALID_EDGES : EdgeType → List (NodeType × NodeType)
  | .CONTAINS =>
    [(.PACKAGE, .MODULE), (.MODULE, .CLASS), (.MODULE, .FUNCTION),
     (.CLASS, .CLASS), (.CLASS, .FUNCTION), (.CLASS, .VARIABLE),
     (.FUNCTION, .FUNCTION), (.FUNCTION, .CLASS)]
  | .IMPORTS => [(.MODULE, .MODULE), (.PACKAGE, .PACKAGE)]
  | .INHERITS => [(.CLASS, .CLASS)]
  | .COMPOSES => [(.CLASS, .CLASS), (.CLASS, .FUNCTION), (.CLASS, .VARIABLE)]
  | .CALLS => [(.FUNCTION, .FUNCTION), (.FUNCTION, .CLASS)]
  | .REFERENCES => [(.FUNCTION, .VARIABLE), (.CLASS, .VARIABLE)]
  | .DECORATES =>
    [(.FUNCTION, .FUNCTION), (.FUNCTION, .CLASS),
     (.CLASS, .FUNCTION), (.CLASS, .CLASS)]

/-- The `additional: Dict[str, Any]` slot of `Metadata`.  The visitor only
ever stores the keys `"base_classes"` and `"is_callable"` (visit_ClassDef);
an untouched `additional` is the empty — falsy — dict, modelled as `none`
at the use sites. -/
structure AdditionalInfo where
  base_classes : List String
  is_callable : Bool
deriving DecidableEq, Repr

/-- `Metadata` (models.py lines 79-92), restricted to the fields the
embedded code reads or writes.  `additional = none` models the empty dict
default. -/
structure Metadata where
  source_file : Option String := none
  docstring : Option String := none
  additional : Option AdditionalInfo := none
deriving DecidableEq, Repr

/-- `GraphEdge` (models.py lines 98-103), as a plain record; validation is
performed by `GraphEdge.init` below, mirroring the custom `__init__`. -/
structure GraphEdge where
  edge_type : EdgeType
  source_node_id : String
  target_node_id : String
  source_node_type : NodeType
  target_node_type : NodeType
deriving DecidableEq, Repr

/-- `GraphEdge.validate_edge` (models.py lines 105-109): the edge direction
is valid when the `(source_type, target_type)` pair is listed for the edge
type. -/
def GraphEdge.validate_edge (edge_type : EdgeType)
    (source_type target_type : NodeType) : Bool :=
  decide ((source_type, target_type) ∈ VALID_EDGES edge_type)

/-- The `GraphEdge` constructor (models.py lines 111-114): after field
assignment it calls `validate_edge`, raising `ValueError` — here `.error` —
on an invalid triple, so no edge value is produced. -/
def GraphEdge.init (edge_type : EdgeType) (source_node_id target_node_id : String)
    (source_node_type target_node_type : NodeType) : Except String GraphEdge :=
  if GraphEdge.validate_edge edge_type source_node_type target_node_type then
    .ok ⟨edge_type, source_node_id, target_node_id, source_node_type, target_node_type⟩
  else
    .error "Invalid edge direction"

/-- `GraphNode` (models.py lines 122-127), restricted to the fields the
embedded code uses. -/
structure GraphNode where
  id : String
  name : String
  node_type : NodeType
  metadata : Metadata := {}
  relationships : List GraphEdge := []
deriving DecidableEq, Repr

end Codebase

namespace Codebase

/-! ### `CodeGraph` — `src/codebase/code_graph/graph.py`

`CodeGraph` wraps a NetworkX `DiGraph`.  `merge_nodes_by_reference` only
reads `data["name"]` and `data["metadata"]["source_file"]` of a node's
dumped data, so the per-node payload is modelled by those two fields.
NetworkX stores nodes in insertion order; a node added implicitly by
`add_edge` has no `data` attribute at all (`attr.get("data", {})` then
yields the empty dict), modelled as a `none` payload. -/

/-- The part of `node.model_dump(...)` that `merge_nodes_by_reference`
reads: `data["name"]` and `data["metadata"]["source_file"]`.
(`add_node` dumps with `exclude_none=True`, so a `None` source file is an
absent key; either way `data.get("metadata", {}).get("source_file")` is
falsy exactly when `source_file` here is `none` or `""`.) -/
structure NodeData where
  name : String
  source_file : Option String
deriving DecidableEq, Repr

/-- Edge attributes: `add_edge` stores `relationship=edge_type.value`,
and `merge_nodes_by_reference` re-adds redirected edges with `**d`. -/
structure EdgeData where
  relationship : String
deriving DecidableEq, Repr

/-- A NetworkX `DiGraph` as used by `CodeGraph`: insertion-ordered node
list (`none` payload = node created implicitly by `add_edge`) and at most
one edge per ordered pair of ids. -/
structure NxGraph where
  nodes : List (String × Option NodeData)
  edges : List (String × String × EdgeData)
deriving DecidableEq, Repr

namespace NxGraph

/-- `nid in graph` / `graph.has_node(nid)`. -/
def has_node (g : NxGraph) (nid : String) : Bool :=
  g.nodes.any (fun p => p.1 = nid)

/-- `graph.nodes[nid]["data"]` (`none` when the node is absent or has no
`data` attribute). -/
def dataOf (g : NxGraph) (nid : String) : Option NodeData :=
  (lookupA nid g.nodes).bind id

/-- `graph.has_edge(u, v)`. -/
def has_edge (g : NxGraph) (u v : String) : Bool :=
  g.edges.any (fun e => e.1 = u ∧ e.2.1 = v)

/-- `graph.add_node(nid, data=d)`: inserts, or overwrites the attributes of
an existing node in place. -/
def add_node (g : NxGraph) (nid : String) (d : Option NodeData) : NxGraph :=
  { g with nodes := insertA nid d g.nodes }

/-- `graph.add_edge(u, v, relationship=...)`: silently creates missing
endpoints (with no `data` attribute), and overwrites the attributes of an
existing `(u, v)` edge in place. -/
def add_edge (g : NxGraph) (u v : String) (d : EdgeData) : NxGraph :=
  let g := if g.has_node u then g else { g with nodes := g.nodes ++ [(u, none)] }
  let g := if g.has_node v then g else { g with nodes := g.nodes ++ [(v, none)] }
  if g.has_edge u v then
    { g with edges := g.edges.map (fun e => if e.1 = u ∧ e.2.1 = v then (u, v, d) else e) }
  else
    { g with edges := g.edges ++ [(u, v, d)] }

/-- `graph.remove_edge(u, v)` (callers guard with `has_edge`). -/
def remove_edge (g : NxGraph) (u v : String) : NxGraph :=
  { g with edges := g.edges.filter (fun e => ¬(e.1 = u ∧ e.2.1 = v)) }

/-- `graph.remove_node(nid)`: also removes all incident edges. -/
def remove_node (g : NxGraph) (nid : String) : NxGraph :=
  { nodes := g.nodes.filter (fun p => p.1 ≠ nid),
    edges := g.edges.filter (fun e => e.1 ≠ nid ∧ e.2.1 ≠ nid) }

end NxGraph

/-! `merge_nodes_by_reference` (graph.py lines 41-93; the copy in
`code_parser/code_graph.py` lines 74-135 is identical). -/

/-- The grouping loop (graph.py lines 46-49): `simple_to_ids` is an
insertion-ordered dict built with `setdefault(name, []).append(node_id)`,
skipping falsy names.  Keys appear in order of first occurrence; each
bucket holds, in node order, the ids of exactly the nodes carrying that
name.  `mergeGroups` reproduces that dict as (key, bucket) pairs. -/
def groupNames (nodes : List (String × Option NodeData)) : List String :=
  nodes.foldl
    (fun acc p =>
      match p.2 with
      | none => acc
      | some d => if d.name.isEmpty ∨ d.name ∈ acc then acc else acc ++ [d.name])
    []

/-- The bucket of ids recorded for one name. -/
def bucketOf (nodes : List (String × Option NodeData)) (name : String) :
    List String :=
  (nodes.filter (fun p => p.2.any (fun d => d.name = name))).map (·.1)

/-- `simple_to_ids.items()`. -/
def mergeGroups (nodes : List (String × Option NodeData)) :
    List (String × List String) :=
  (groupNames nodes).map (fun n => (n, bucketOf nodes n))

/-- The `score` closure (graph.py lines 56-60): `(-has_source_file, pkg)`
where `pkg = nid.split(":", 1)[1]`.  (Python would raise on an id without
a colon; theorems about graphs therefore carry a colon hypothesis.) -/
def mergeScore (g : NxGraph) (nid : String) : Int × String :=
  (if truthy ((g.dataOf nid).bind NodeData.source_file) then -1 else 0,
   afterColon nid)

/-- Strict lexicographic comparison of Python's `(int, str)` score pairs. -/
def scoreLt (a b : Int × String) : Prop :=
  a.1 < b.1 ∨ (a.1 = b.1 ∧ a.2 < b.2)

instance (a b : Int × String) : Decidable (scoreLt a b) := by
  unfold scoreLt; infer_instance

/-- `min(ids, key=score)`: first element attaining the minimum. -/
def minByScore (g : NxGraph) : List String → Option String
  | [] => none
  | x :: xs =>
    some (xs.foldl
      (fun best nid => if scoreLt (mergeScore g nid) (mergeScore g best) then nid else best)
      x)

/-- The edge-collection loop for one redundant node `nid`
(graph.py lines 74-85): returns `(edges_to_add, edges_to_remove)`.
Both `if`s are checked independently, as in the source. -/
def collectRedirect (g : NxGraph) (canonical nid : String) :
    List (String × String × EdgeData) × List (String × String) :=
  g.edges.foldl
    (fun acc e =>
      let (u, v, d) := e
      let acc :=
        if v = nid ∧ g.has_node u then
          ((if ¬g.has_edge u canonical then acc.1 ++ [(u, canonical, d)] else acc.1),
           acc.2 ++ [(u, v)])
        else acc
      if u = nid ∧ g.has_node v then
        ((if ¬g.has_edge canonical v then acc.1 ++ [(canonical, v, d)] else acc.1),
         acc.2 ++ [(u, v)])
      else acc)
    ([], [])

/-- Applying the collected edits and deleting `nid`
(graph.py lines 87-93). -/
def applyRedirect (g : NxGraph) (canonical nid : String) : NxGraph :=
  let col := collectRedirect g canonical nid
  let g := col.1.foldl (fun g e => g.add_edge e.1 e.2.1 e.2.2) g
  let g := col.2.foldl (fun g e => if g.has_edge e.1 e.2 then g.remove_edge e.1 e.2 else g) g
  if g.has_node nid then g.remove_node nid else g

/-- Processing one `(name, ids)` group (graph.py lines 52-93): skip
singleton groups, pick the canonical id by minimal score on the current
graph, then redirect and remove every other id of the group. -/
def processGroup (g : NxGraph) (ids : List String) : NxGraph :=
  if ids.length ≤ 1 then g
  else
    match minByScore g ids with
    | none => g
    | some canonical =>
      ids.foldl
        (fun g nid =>
          if nid = canonical then g
          else if ¬g.has_node nid then g
          else applyRedirect g canonical nid)
        g

/-- `CodeGraph.merge_nodes_by_reference` (graph.py lines 41-93): the groups
are computed once from the initial graph, then processed in order against
the evolving graph. -/
def merge_nodes_by_reference (g : NxGraph) : NxGraph :=
  (mergeGroups g.nodes).foldl (fun g p => processGroup g p.2) g

end Codebase

namespace Codebase

/-! ### Python `str` truthiness / `or`, and remaining path helpers -/

/-- Python `a or b` where `a` is an `Optional[str]`: the fallback is used
when `a` is `None` or the empty string. -/
def orElseStr (o : Option String) (fallback : String) : String :=
  match o with
  | some s => if s.isEmpty then fallback else s
  | none => fallback

/-- Python `s.startswith(pre)`. -/
def startswith (s pre : String) : Bool :=
  pre.data.isPrefixOf s.data

/-- `os.path.basename` for a slash-separated path. -/
def pyBasename (s : String) : String :=
  String.mk ((splitAll '/' s.data).getLastD [])

/-- `os.path.dirname` for a slash-separated path (empty when the path holds
no separator). -/
def pyDirname (s : String) : String :=
  match splitAtFirst '/' s.data.reverse with
  | some p => String.mk p.2.reverse
  | none => ""

/-- `compute_package_full_path` (code_parser/utils.py lines 10-21; the copy
in code_parser/helpers.py lines 9-30 is identical).  The stdlib prelude
`os.path.relpath` → `os.path.normpath` → `split(os.sep)` is external path
arithmetic; its result — the normalized relative path of the source file as
a segment list — is the `relParts` argument.  From there the function drops
a trailing `__init__.py`, otherwise strips the extension of the last
segment, and joins with dots. -/
def compute_package_full_path (relParts : List String) : String :=
  let parts :=
    if relParts.getLast? = some "__init__.py" then relParts.dropLast
    else relParts.dropLast ++ [splitextRoot (relParts.getLastD "")]
  dotJoin parts

/-! ### The Python AST fragment walked by `CodeVisitor`

The parser (`ast.parse`) is an external collaborator; the visitor only
dispatches on Import, ImportFrom, ClassDef, FunctionDef and Call nodes and
walks children via `generic_visit`.  Receivers of attribute accesses are
restricted to plain names, and base-class expressions to plain strings
(`ast.unparse(base)`), which is the fragment all claims live in. -/

/-- The callee shapes `visit_Call` distinguishes: `ast.Name` and
`ast.Attribute` with an `ast.Name` receiver. -/
inductive CallFunc where
  | name (id : String)
  | attr (obj attrName : String)
deriving DecidableEq, Repr

/-- Expressions: calls (with argument subexpressions that `generic_visit`
walks), and call-free atoms. -/
inductive PyExpr where
  | name (id : String)
  | attribute (obj attrName : String)
  | call (func : CallFunc) (args : List PyExpr)
  | constant

/-- Statements.  `decorators` carries `decorator_list`; `docstring` is what
`ast.get_docstring` returns for the node. -/
inductive PyStmt where
  | imprt (names : List String)
  | importFrom (level : Nat) (module : Option String) (names : List String)
  | classDef (name : String) (bases : List String) (decorators : List PyExpr)
      (docstring : Option String) (body : List PyStmt)
  | funcDef (name : String) (decorators : List PyExpr)
      (docstring : Option String) (body : List PyStmt)
  | exprStmt (e : PyExpr)

/-- An `ast.Module`: its docstring plus the statement list. -/
structure PyModule where
  docstring : Option String
  body : List PyStmt

/-! ### `CodeVisitor` state — `src/codebase/code_parser/visitor.py`

`handled_call_nodes` and `decorator_mappings` are initialized by the source
but never written to on any path the visitor takes (`handled_call_nodes`
in particular is never added to, so the guard in `visit_Call` never fires);
they are omitted.  `find_package_source` (code_parser/utils.py lines 24-39)
scans `sys.path` on the file system and is carried as an oracle. -/
structure VState where
  source_file : String
  graph_nodes : List (String × GraphNode)
  current_parent_ids : List String
  reference_table : List (String × List (String × String))
  imported_module_cache : List (String × String)
  module_id : String
  find_package_source : String → Option String

/-- The package key both `update_reference_table` and `compute_node_id`
derive from a composite id:
`full = id.split(":", 1)[1]` then `full.rsplit(".", 1)[0]`, with the
`try/except ValueError` fallback `""` when the id has no colon. -/
def pkgOfId (id : String) : String :=
  beforeLastDot (afterColon id)

/-- `self.graph_nodes[key].relationships.append(edge)`: replace the node
at `key` with the edge appended.  When `key` is absent Python raises
`KeyError` before mutating anything, leaving the state as it was. -/
def appendRel (st : VState) (key : String) (e : GraphEdge) : VState :=
  match lookupA key st.graph_nodes with
  | none => st
  | some node =>
    { st with graph_nodes :=
        insertA key { node with relationships := node.relationships ++ [e] } st.graph_nodes }

/-- `update_reference_table` (visitor.py lines 55-75): the entry for
`(name, package)` is left alone only when a currently stored, present node
has a truthy source file; otherwise it is overwritten with the new id. -/
def update_reference_table (st : VState) (node : GraphNode) : VState :=
  let package := pkgOfId node.id
  let table :=
    if (lookupA node.name st.reference_table).isNone then
      insertA node.name [] st.reference_table
    else st.reference_table
  let inner := (lookupA node.name table).getD []
  let skip : Bool :=
    match lookupA package inner with
    | some eid =>
      !eid.isEmpty &&
        (match lookupA eid st.graph_nodes with
         | some enode => truthy enode.metadata.source_file
         | none => false)
    | none => false
  if skip then { st with reference_table := table }
  else { st with reference_table := insertA node.name (insertA package node.id inner) table }

/-- `update_reference_table` of the `code_visitor.py` variant (lines
55-83): an existing entry is replaced only when its node is missing or has
no truthy source file *and* the new node has one; an absent or empty entry
is simply set. -/
def update_reference_table_cv (st : VState) (node : GraphNode) : VState :=
  let package := pkgOfId node.id
  let table :=
    if (lookupA node.name st.reference_table).isNone then
      insertA node.name [] st.reference_table
    else st.reference_table
  let inner := (lookupA node.name table).getD []
  match lookupA package inner with
  | some eid =>
    if eid.isEmpty then
      { st with reference_table := insertA node.name (insertA package node.id inner) table }
    else
      let existingGood : Bool :=
        match lookupA eid st.graph_nodes with
        | some enode => truthy enode.metadata.source_file
        | none => false
      if !existingGood && truthy node.metadata.source_file then
        { st with reference_table := insertA node.name (insertA package node.id inner) table }
      else { st with reference_table := table }
  | none =>
    { st with reference_table := insertA node.name (insertA package node.id inner) table }

/-- `compute_node_id` (visitor.py lines 77-92).  With no parent the
fallback interpolates the whole `module_id` — prefix included — into the
new id, exactly as the f-string does. -/
def compute_node_id (st : VState) (node_type : NodeType) (name : String) : String :=
  match st.current_parent_ids.getLast? with
  | none => node_type.value ++ ":" ++ st.module_id ++ "." ++ name
  | some parent_id =>
    node_type.value ++ ":" ++ pkgOfId parent_id ++ "." ++ name

/-- One candidate's score in `lookup_node` (visitor.py lines 395-417;
identical in code_visitor.py lines 247-275):
`1 if (node and node.metadata and node.metadata.source_file) else 0`. -/
def candScore (st : VState) (node_id : String) : Int :=
  match lookupA node_id st.graph_nodes with
  | some node => if truthy node.metadata.source_file then 1 else 0
  | none => 0

/-- One iteration of `lookup_node`'s candidate loop: a strictly better
score wins, an equal score wins only with a lexicographically smaller
package than the incumbent's (re-derived from the incumbent's id). -/
def lookupStep (st : VState) (acc : Option String × Int) (pkg_id : String × String) :
    Option String × Int :=
  let score := candScore st pkg_id.2
  let better : Prop :=
    score > acc.2 ∨ (score = acc.2 ∧ (acc.1 = none ∨ pkg_id.1 < pkgOfId (acc.1.getD "")))
  if better then (some pkg_id.2, score) else acc

/-- `lookup_node` (visitor.py lines 395-417): gather the name's
candidates, return `None` when there are none, else fold `lookupStep`
from `(None, -1)` and return the best id. -/
def lookup_node (st : VState) (simple_name : String) : Option String :=
  let candidates := (lookupA simple_name st.reference_table).getD []
  if candidates.isEmpty then none
  else (candidates.foldl (lookupStep st) ((none : Option String), (-1 : Int))).1

/-- `add_node` (visitor.py lines 94-115): store the node, update the
reference table, then append a `Contains` edge to the parent.  An invalid
`Contains` pair would raise inside the `GraphEdge` constructor after the
node is stored (unreachable from the visit methods, whose parents are
always modules, classes or functions). -/
def add_node (st : VState) (node : GraphNode) : VState :=
  let st := { st with graph_nodes := insertA node.id node st.graph_nodes }
  let st := update_reference_table st node
  match st.current_parent_ids.getLast? with
  | none => st
  | some parent_id =>
    match lookupA parent_id st.graph_nodes with
    | none => st
    | some pnode =>
      if GraphEdge.validate_edge .CONTAINS pnode.node_type node.node_type then
        appendRel st parent_id
          ⟨.CONTAINS, parent_id, node.id, pnode.node_type, node.node_type⟩
      else st

/-- `visit_Import` (visitor.py lines 117-144): for each alias, resolve or
fabricate `module:<name>`, cache it, create the module node if new (its
source file is whatever `find_package_source` locates), and append an
`Imports` edge to the current module node. -/
def visit_Import (st : VState) (names : List String) : VState :=
  names.foldl
    (fun st imported_module =>
      let imported_module_id :=
        (lookupA imported_module st.imported_module_cache).getD
          ("module:" ++ imported_module)
      let cache := insertA imported_module imported_module_id st.imported_module_cache
      let st := { st with imported_module_cache := cache }
      let module_source_file := st.find_package_source imported_module
      let st :=
        if (lookupA imported_module_id st.graph_nodes).isNone then
          let node : GraphNode :=
            { id := imported_module_id, name := imported_module, node_type := .MODULE,
              metadata := { source_file := module_source_file, docstring := none } }
          let st := { st with graph_nodes := insertA imported_module_id node st.graph_nodes }
          update_reference_table st node
        else st
      appendRel st st.module_id
        ⟨.IMPORTS, st.module_id, imported_module_id, .MODULE, .MODULE⟩)
    st

/-- The base-module computation of `visit_ImportFrom` (visitor.py lines
153-165): for a relative import, split the current module id's dotted path
and walk up `level` segments. -/
def importFromBase (st : VState) (level : Nat) (module : Option String) : String :=
  if level > 0 then
    let package_parts := splitDots (afterColon st.module_id)
    let base := dotJoin (package_parts.take (package_parts.length - level))
    base ++
      (match module with
       | some m => if m.isEmpty then "" else "." ++ m
       | none => "")
  else
    match module with
    | some m => m
    | none => ""

/-- `visit_ImportFrom` (visitor.py lines 146-197): per alias, append the
alias to the base module, then resolve/create/link exactly as
`visit_Import` does.  The trailing `generic_visit` finds no further
visitable children. -/
def visit_ImportFrom (st : VState) (level : Nat) (module : Option String)
    (names : List String) : VState :=
  let base_module := importFromBase st level module
  names.foldl
    (fun st aliasName =>
      let imported_module :=
        if base_module.isEmpty then aliasName else base_module ++ "." ++ aliasName
      let imported_module_id :=
        (lookupA imported_module st.imported_module_cache).getD
          ("module:" ++ imported_module)
      let cache := insertA imported_module imported_module_id st.imported_module_cache
      let st := { st with imported_module_cache := cache }
      let module_source_file := st.find_package_source imported_module
      let st :=
        if (lookupA imported_module_id st.graph_nodes).isNone then
          let node : GraphNode :=
            { id := imported_module_id, name := imported_module, node_type := .MODULE,
              metadata := { source_file := module_source_file, docstring := none } }
          let st := { st with graph_nodes := insertA imported_module_id node st.graph_nodes }
          update_reference_table st node
        else st
      appendRel st st.module_id
        ⟨.IMPORTS, st.module_id, imported_module_id, .MODULE, .MODULE⟩)
    st

/-- The call-edge logic of `visit_Call` (visitor.py lines 304-353), without
the trailing `generic_visit`.  `handled_call_nodes` is never populated, so
its guard is dead code. -/
def visitCallLogic (st : VState) (func : CallFunc) : VState :=
  let caller_id :=
    ((st.current_parent_ids.reverse.find? (fun p => startswith p "function:")).getD
      st.module_id)
  let called_function_id : Option String :=
    match func with
    | .name fid =>
      let possible_class_id :=
        orElseStr (lookup_node st fid) (compute_node_id st .CLASS fid)
      match lookupA possible_class_id st.graph_nodes with
      | some cnode =>
        let is_callable : Bool :=
          match cnode.metadata.additional with
          | some a => a.is_callable
          | none => false
        if is_callable then some possible_class_id
        else some (orElseStr (lookup_node st fid) (compute_node_id st .FUNCTION fid))
      | none => none
    | .attr obj attrName =>
      if obj = "self" ∨ obj = "cls" then
        match st.current_parent_ids.reverse.find? (fun p => startswith p "class:") with
        | some parent_class_id =>
          some ("function:" ++ afterColon parent_class_id ++ "." ++ attrName)
        | none => none
      else
        let possible_class_id :=
          orElseStr (lookup_node st obj) (compute_node_id st .CLASS obj)
        match lookupA possible_class_id st.graph_nodes with
        | some cnode =>
          let is_callable : Bool :=
            match cnode.metadata.additional with
            | some a => a.is_callable
            | none => false
          if is_callable then some possible_class_id else none
        | none => none
  if truthy called_function_id then
    let cid := called_function_id.getD ""
    appendRel st caller_id
      ⟨.CALLS, caller_id, cid, .FUNCTION,
        if startswith cid "class:" then .CLASS else .FUNCTION⟩
  else st

/-- One decorator of `handle_decorators` (visitor.py lines 357-389):
`ast.Name` and `ast.Attribute` decorators produce a `Decorates` edge that
is appended to the *decorated* node's relationship list with the decorator
as source; other shapes are skipped. -/
def handle_decorator (st : VState) (target_id : String) (deco : PyExpr) : VState :=
  let emit (full_decorator_id : String) : VState :=
    let target_node_type : NodeType :=
      if startswith target_id "function:" then .FUNCTION else .CLASS
    appendRel st target_id
      ⟨.DECORATES, full_decorator_id, target_id, .FUNCTION, target_node_type⟩
  match deco with
  | .name decorator_name =>
    emit (orElseStr (lookup_node st decorator_name)
      (compute_node_id st .FUNCTION decorator_name))
  | .attribute obj decorator_name =>
    emit (orElseStr (lookup_node st (obj ++ "." ++ decorator_name))
      (compute_node_id st .FUNCTION decorator_name))
  | _ => st

/-- `handle_decorators` over a decorator list. -/
def handle_decorators (st : VState) (decorators : List PyExpr) (target_id : String) :
    VState :=
  decorators.foldl (fun st d => handle_decorator st target_id d) st

end Codebase

namespace Codebase

/-! ### The tree walk

`ast.NodeVisitor.visit` dispatches Call nodes to `visit_Call`, whose
trailing `generic_visit` walks the argument expressions; all other
expression shapes in the fragment have no visitable children. -/

mutual

def visitExpr (st : VState) : PyExpr → VState
  | .call f args => visitExprList (visitCallLogic st f) args
  | .name _ => st
  | .attribute _ _ => st
  | .constant => st

def visitExprList (st : VState) : List PyExpr → VState
  | [] => st
  | e :: es => visitExprList (visitExpr st e) es

end

mutual

/-- Statement dispatch: `visit_Import`, `visit_ImportFrom`,
`visit_ClassDef` (visitor.py lines 199-248), `visit_FunctionDef`
(lines 250-302), and expression statements reached by `generic_visit`.
For class and function definitions, a name already resolvable through the
reference table short-circuits the whole visit (the body is not entered);
otherwise the node is added, pushed as parent, `handle_decorators` runs,
and `generic_visit` walks the children in AST field order — for ClassDef
the body then the decorator expressions, for FunctionDef likewise. -/
def visitStmt (st : VState) : PyStmt → VState
  | .imprt names => visit_Import st names
  | .importFrom level module names => visit_ImportFrom st level module names
  | .classDef name bases decorators docstring body =>
    let _class_id := compute_node_id st .CLASS name
    if truthy (lookup_node st name) then st
    else
      let is_callable := body.any (fun s =>
        match s with
        | .funcDef fname _ _ _ => fname = "__call__"
        | _ => false)
      let class_node : GraphNode :=
        { id := _class_id, name := name, node_type := .CLASS,
          metadata :=
            { source_file := some st.source_file, docstring := docstring,
              additional := some { base_classes := bases, is_callable := is_callable } } }
      let st := add_node st class_node
      let st := { st with current_parent_ids := st.current_parent_ids ++ [_class_id] }
      let st := handle_decorators st decorators _class_id
      let st := visitStmtList st body
      let st := visitExprList st decorators
      { st with current_parent_ids := st.current_parent_ids.dropLast }
  | .funcDef name decorators docstring body =>
    let parent_id := (st.current_parent_ids.getLast?).getD st.module_id
    let is_method := startswith parent_id "class:"
    let function_id := compute_node_id st .FUNCTION name
    if truthy (lookup_node st name) then st
    else
      let function_node : GraphNode :=
        { id := function_id, name := name, node_type := .FUNCTION,
          metadata := { source_file := some st.source_file, docstring := docstring } }
      let st := add_node st function_node
      let st :=
        if is_method then
          appendRel st parent_id
            ⟨.CONTAINS, parent_id, function_id, .CLASS, .FUNCTION⟩
        else st
      let st := { st with current_parent_ids := st.current_parent_ids ++ [function_id] }
      let st := handle_decorators st decorators function_id
      let st := visitStmtList st body
      let st := visitExprList st decorators
      { st with current_parent_ids := st.current_parent_ids.dropLast }
  | .exprStmt e => visitExpr st e

def visitStmtList (st : VState) : List PyStmt → VState
  | [] => st
  | s :: ss => visitStmtList (visitStmt st s) ss

end

/-- `CodeVisitor.__init__` (visitor.py lines 19-53).  `source_file` is the
path string handed to the constructor; `relParts` is the segment list that
`os.path.relpath`/`normpath`/`split` produce for it against the project
root (external path arithmetic); `docstring` is what
`ast.get_docstring(ast.parse(code))` returns.  A falsy `project_root`
raises before any of this — callers pass a non-empty root. -/
def CodeVisitor.init (fps : String → Option String) (source_file : String)
    (relParts : List String) (docstring : Option String) : VState :=
  let filename := pyBasename source_file
  let simple_name :=
    if filename = "__init__.py" then pyBasename (pyDirname source_file)
    else splitextRoot filename
  let package_full := compute_package_full_path relParts
  let module_id := "module:" ++ package_full ++ "." ++ simple_name
  let module_node : GraphNode :=
    { id := module_id, name := simple_name, node_type := .MODULE,
      metadata := { source_file := some source_file, docstring := docstring } }
  let st : VState :=
    { source_file := source_file,
      graph_nodes := [(module_id, module_node)],
      current_parent_ids := [],
      reference_table := [],
      imported_module_cache := [],
      module_id := module_id,
      find_package_source := fps }
  let st := update_reference_table st module_node
  { st with current_parent_ids := [module_id] }

/-- `visitor.visit(tree)` on an `ast.Module`: `generic_visit` walks the
statement list. -/
def visitModule (st : VState) (m : PyModule) : VState :=
  visitStmtList st m.body

end Codebase

namespace Codebase

/-! ### `CodeGraph` ingestion and the project builder —
`src/codebase/code_graph/graph.py` and `src/codebase/code_graph/utils.py` -/

/-- `CodeGraph.add_node` (graph.py lines 11-19): dump the node and store it
under its id; the dump's fields used downstream are the simple name and the
metadata source file. -/
def CodeGraph.add_node (g : NxGraph) (node : GraphNode) : NxGraph :=
  g.add_node node.id (some ⟨node.name, node.metadata.source_file⟩)

/-- `CodeGraph.add_edge` (graph.py lines 21-23). -/
def CodeGraph.add_edge (g : NxGraph) (source_id : String) (e : GraphEdge) : NxGraph :=
  g.add_edge source_id e.target_node_id ⟨e.edge_type.value⟩

/-- `CodeGraph.build_from_nodes` (graph.py lines 25-31): two-phase — all
nodes first, then every node's own relationship edges. -/
def build_from_nodes (g : NxGraph) (nodes : List GraphNode) : NxGraph :=
  let g := nodes.foldl (fun g n => CodeGraph.add_node g n) g
  nodes.foldl
    (fun g n => n.relationships.foldl (fun g e => CodeGraph.add_edge g n.id e) g) g

/-- `build_from_code` (code_graph/utils.py lines 83-92): `ast.parse` first
— a syntax error raises out of the function — then a full visitor run and
a bulk ingest.  The parser being external, the outcome of
`ast.parse(code)` is the `parsed` argument (the constructor's re-parse for
the docstring sees the same result). -/
def build_from_code (fps : String → Option String) (source_file : String)
    (relParts : List String) (parsed : Except String PyModule) :
    Except String NxGraph :=
  match parsed with
  | .error e => .error e
  | .ok tree =>
    let st := CodeVisitor.init fps source_file relParts tree.docstring
    let st := visitModule st tree
    .ok (build_from_nodes ⟨[], []⟩ (st.graph_nodes.map Prod.snd))

/-- `merge_graphs` (code_graph/utils.py lines 104-111): copy every node
(with its data) and every edge of the module graph into the master. -/
def merge_graphs (master module_graph : NxGraph) : NxGraph :=
  let master := module_graph.nodes.foldl (fun m p => m.add_node p.1 p.2) master
  module_graph.edges.foldl (fun m e => m.add_edge e.1 e.2.1 ⟨e.2.2.relationship⟩) master

/-- One file of a project build: its path, its normalized relative segment
list, and what reading+parsing it yields — `content = none` models
`read_python_file` returning `None` on an I/O or decode error (logged and
skipped), `some parsed` carries the `ast.parse` outcome for its text. -/
structure ProjFile where
  path : String
  relParts : List String
  content : Option (Except String PyModule)

/-- The file loop of `build_project_graph` (code_graph/utils.py lines
121-127): unreadable files are skipped; a `build_from_code` failure —
ast.parse raising `SyntaxError` — is not caught anywhere, so it aborts the
loop and propagates. -/
def buildLoop (fps : String → Option String) :
    List ProjFile → NxGraph → Except String NxGraph
  | [], master => .ok master
  | f :: rest, master =>
    match f.content with
    | none => buildLoop fps rest master
    | some parsed =>
      match build_from_code fps f.path f.relParts parsed with
      | .error e => .error e
      | .ok module_graph => buildLoop fps rest (merge_graphs master module_graph)

/-- `build_project_graph` (code_graph/utils.py lines 114-129): fold the
files into a master graph, then canonicalize once.  The discovered file
list (`root.rglob`) is external I/O and is the `files` argument. -/
def build_project_graph (fps : String → Option String) (files : List ProjFile) :
    Except String NxGraph :=
  match buildLoop fps files ⟨[], []⟩ with
  | .error e => .error e
  | .ok master => .ok (merge_nodes_by_reference master)

end Codebase

namespace Codebase

/-! ### Claim C1 -/

/-- C1: constructing a `GraphEdge` succeeds exactly when the
`(edge_type, source_node_type, target_node_type)` triple is in the
`VALID_EDGES` allow-list (otherwise the constructor raises and no edge value
is produced), and an `Inherits` edge is constructible only with source type
`Class` and target type `Class`. -/
theorem graphEdge_init_ok_iff_allowlist (et : EdgeType) (sid tid : String)
    (st tt : NodeType) :
    ((GraphEdge.init et sid tid st tt).isOk ↔ (st, tt) ∈ VALID_EDGES et) ∧
    ((GraphEdge.init .INHERITS sid tid st tt).isOk ↔
      st = .CLASS ∧ tt = .CLASS) := by
  constructor
  · unfold GraphEdge.init GraphEdge.validate_edge
    split <;> simp_all [Except.isOk, Except.toBool]
  · unfold GraphEdge.init GraphEdge.validate_edge
    cases st <;> cases tt <;>
      simp [VALID_EDGES, Except.isOk, Except.toBool]

end Codebase

namespace Codebase

/-! ### Concrete fixtures used by witnesses -/

/-- A reference-table fixture: candidates `function:a.n` (with source
file) and `function:b.n` (without), the sourced one inserted second. -/
def fixtureSourcedSecond : VState :=
  { source_file := "x.py",
    graph_nodes :=
      [("function:a.n",
        { id := "function:a.n", name := "n", node_type := .FUNCTION,
          metadata := { source_file := some "x.py" } }),
       ("function:b.n",
        { id := "function:b.n", name := "n", node_type := .FUNCTION })],
    current_parent_ids := [],
    reference_table := [("n", [("b", "function:b.n"), ("a", "function:a.n")])],
    imported_module_cache := [],
    module_id := "module:m.m",
    find_package_source := fun _ => none }

/-- The same two candidates with the sourced one inserted first. -/
def fixtureSourcedFirst : VState :=
  { fixtureSourcedSecond with
    reference_table := [("n", [("a", "function:a.n"), ("b", "function:b.n")])] }

/-- Both candidates without a source file: an equal-score tie. -/
def fixtureTie : VState :=
  { fixtureSourcedSecond with
    graph_nodes :=
      [("function:b.n",
        { id := "function:b.n", name := "n", node_type := .FUNCTION }),
       ("function:a.n",
        { id := "function:a.n", name := "n", node_type := .FUNCTION })] }

/-- The id stored in the reference table for a `(name, package)` pair. -/
def storedId (st : VState) (name pkg : String) : Option String :=
  lookupA pkg ((lookupA name st.reference_table).getD [])

/-- A visitor state whose reference table records, for name `n` and
package `p`, a node that lacks source-file metadata. -/
def fixtureStoredUnsourced : VState :=
  { source_file := "",
    graph_nodes :=
      [("class:p.n", { id := "class:p.n", name := "n", node_type := .CLASS })],
    current_parent_ids := [],
    reference_table := [("n", [("p", "class:p.n")])],
    imported_module_cache := [],
    module_id := "module:q.q",
    find_package_source := fun _ => none }

/-- The same table, but the stored node carries a source file. -/
def fixtureStoredSourced : VState :=
  { fixtureStoredUnsourced with
    graph_nodes :=
      [("class:p.n",
        { id := "class:p.n", name := "n", node_type := .CLASS,
          metadata := { source_file := some "p.py" } })] }

/-- A new node for the same `(name, package)` pair without a source file. -/
def unsourcedNewNode : GraphNode :=
  { id := "function:p.n", name := "n", node_type := .FUNCTION }

/-- A new node for the same `(name, package)` pair with a source file. -/
def sourcedNewNode : GraphNode :=
  { id := "function:p.n", name := "n", node_type := .FUNCTION,
    metadata := { source_file := some "p.py" } }

/-- The module at `pkg/mod.py` visits `from .utils import helper`
(fixture for C6). -/
def c6State : VState :=
  visitStmt (CodeVisitor.init (fun _ => none) "/root/pkg/mod.py" ["pkg", "mod.py"] none)
    (.importFrom 1 (some "utils") ["helper"])

/-- The initial visitor state for `pkg/mod.py` (fixture for C6's witness). -/
def c6Init : VState :=
  CodeVisitor.init (fun _ => none) "/root/pkg/mod.py" ["pkg", "mod.py"] none

/-- The module node `c6Init` creates (fixture for C6's witness). -/
def c6ModNode : GraphNode :=
  { id := "module:pkg.mod.mod", name := "mod", node_type := .MODULE,
    metadata := { source_file := some "/root/pkg/mod.py", docstring := none } }

/-- The module at `pkg/mod.py` visits `import os` with a
`find_package_source` oracle that locates `os.py` (fixture for C9). -/
def c9State : VState :=
  visitStmt
    (CodeVisitor.init (fun m => if m = "os" then some "/usr/lib/python3.11/os.py" else none)
      "/root/pkg/mod.py" ["pkg", "mod.py"] none)
    (.imprt ["os"])

/-- The module at `t.py` defines a function `f` decorated with `@d`
(fixture for C8). -/
def c8State : VState :=
  visitModule (CodeVisitor.init (fun _ => none) "/root/t.py" ["t.py"] none)
    ⟨none, [.funcDef "f" [.name "d"] none []]⟩

/-- An edge a node may legitimately hold in its `relationships` list: it is
either outgoing (`source_node_id` is the node's own id) or a `Decorates`
edge stored on its *target* (`handle_decorators` appends the decoration to
the decorated node). -/
def goodEdge (id : String) (e : GraphEdge) : Prop :=
  e.source_node_id = id ∨ (e.edge_type = .DECORATES ∧ e.target_node_id = id)

/-- The visitor's node-map invariant: every stored node's id equals its
key, and each of its relationship edges is a `goodEdge` for it. -/
def RelInv (gn : List (String × GraphNode)) : Prop :=
  ∀ p ∈ gn, p.2.id = p.1 ∧ ∀ e ∈ p.2.relationships, goodEdge p.2.id e

/-! ## Lemmas about `merge_nodes_by_reference` -/

theorem processGroup_singleton (g : NxGraph) (x : String) :
    processGroup g [x] = g := by
  simp [processGroup]

theorem processGroup_nil (g : NxGraph) : processGroup g [] = g := by
  simp [processGroup]

theorem minByScore_pair (g : NxGraph) (a b : String)
    (h : scoreLt (mergeScore g a) (mergeScore g b)) :
    minByScore g [a, b] = some a ∧ minByScore g [b, a] = some a := by
  have h2 : ¬ scoreLt (mergeScore g b) (mergeScore g a) := by
    rcases h with h | ⟨h1, h2⟩
    · rintro (h' | ⟨h1', h2'⟩) <;> omega
    · rintro (h' | ⟨h1', h2'⟩)
      · omega
      · exact absurd (h2.trans h2') (lt_irrefl _)
  constructor <;> simp [minByScore, h, h2]

theorem processGroup_pair (g : NxGraph) (a b : String)
    (h : scoreLt (mergeScore g a) (mergeScore g b))
    (hb : g.has_node b = true) (hab : a ≠ b) :
    processGroup g [a, b] = applyRedirect g a b ∧
    processGroup g [b, a] = applyRedirect g a b := by
  obtain ⟨h1, h2⟩ := minByScore_pair g a b h
  constructor
  · simp [processGroup, h1, hb, Ne.symm hab]
  · simp [processGroup, h2, hb, Ne.symm hab]

theorem merge_two_groups (g : NxGraph) (n m a b c : String)
    (hmg : mergeGroups g.nodes = [(n, [a, b]), (m, [c])] ∨
           mergeGroups g.nodes = [(n, [b, a]), (m, [c])] ∨
           mergeGroups g.nodes = [(m, [c]), (n, [a, b])] ∨
           mergeGroups g.nodes = [(m, [c]), (n, [b, a])])
    (h : scoreLt (mergeScore g a) (mergeScore g b))
    (hb : g.has_node b = true) (hab : a ≠ b) :
    merge_nodes_by_reference g = applyRedirect g a b := by
  obtain ⟨hp1, hp2⟩ := processGroup_pair g a b h hb hab
  rcases hmg with hmg | hmg | hmg | hmg <;>
    simp [merge_nodes_by_reference, hmg, processGroup_singleton, hp1, hp2]

theorem applyRedirect_single_edge (g : NxGraph) (a b c : String) (d : EdgeData)
    (hedges : g.edges = [(c, b, d)])
    (ha : g.has_node a = true) (hb : g.has_node b = true) (hc : g.has_node c = true)
    (hab : a ≠ b) (hcb : c ≠ b) :
    applyRedirect g a b =
      ⟨g.nodes.filter (fun p => p.1 ≠ b), [(c, a, d)]⟩ := by
  obtain ⟨ns, es⟩ := g
  simp only [NxGraph.has_node, NxGraph.edges] at ha hb hc hedges ⊢
  subst hedges
  simp [applyRedirect, collectRedirect, NxGraph.add_edge, NxGraph.remove_edge,
    NxGraph.remove_node, NxGraph.has_node, NxGraph.has_edge,
    ha, hb, hc, hab, Ne.symm hab, hcb, Ne.symm hcb]

/-- The order-independent core of claim C2: whatever way the three nodes
were inserted, once the groups and the score comparison are known the
merged graph is the two surviving nodes with the redirected edge. -/
theorem C2core (g : NxGraph) (n m a b c : String) (d : EdgeData)
    (hmg : mergeGroups g.nodes = [(n, [a, b]), (m, [c])] ∨
           mergeGroups g.nodes = [(n, [b, a]), (m, [c])] ∨
           mergeGroups g.nodes = [(m, [c]), (n, [a, b])] ∨
           mergeGroups g.nodes = [(m, [c]), (n, [b, a])])
    (hsc : scoreLt (mergeScore g a) (mergeScore g b))
    (ha : g.has_node a = true) (hb : g.has_node b = true) (hc : g.has_node c = true)
    (hedges : g.edges = [(c, b, d)])
    (hab : a ≠ b) (hcb : c ≠ b) :
    (merge_nodes_by_reference g).has_node a = true ∧
    (merge_nodes_by_reference g).has_node b = false ∧
    (merge_nodes_by_reference g).has_node c = true ∧
    (merge_nodes_by_reference g).has_edge c a = true ∧
    (merge_nodes_by_reference g).has_edge c b = false := by
  have hmerge : merge_nodes_by_reference g =
      ⟨g.nodes.filter (fun p => p.1 ≠ b), [(c, a, d)]⟩ :=
    (merge_two_groups g n m a b c hmg hsc hb hab).trans
      (applyRedirect_single_edge g a b c d hedges ha hb hc hab hcb)
  rw [hmerge]
  simp only [NxGraph.has_node, NxGraph.has_edge] at ha hc ⊢
  simp only [List.any_eq_true, decide_eq_true_eq] at ha hc ⊢
  obtain ⟨pa, hpa, hpa1⟩ := ha
  obtain ⟨pc, hpc, hpc1⟩ := hc
  refine ⟨⟨pa, List.mem_filter.2 ⟨hpa, by rw [hpa1]; exact decide_eq_true hab⟩, hpa1⟩,
    ?_, ⟨pc, List.mem_filter.2 ⟨hpc, by rw [hpc1]; exact decide_eq_true hcb⟩, hpc1⟩,
    by simp, by simp [hab]⟩
  rw [List.any_eq_false]
  intro p hp
  have h2 := (List.mem_filter.1 hp).2
  simp only [decide_eq_true_eq] at h2 ⊢
  exact h2

theorem groupNames_mono (ns : List (String × Option NodeData)) :
    ∀ (acc : List String) (m : String), m ∈ acc →
      m ∈ ns.foldl
        (fun acc p =>
          match p.2 with
          | none => acc
          | some d => if d.name.isEmpty ∨ d.name ∈ acc then acc else acc ++ [d.name])
        acc := by
  induction ns with
  | nil => intro acc m hm; simpa using hm
  | cons p rest ih =>
    intro acc m hm
    simp only [List.foldl_cons]
    apply ih
    cases h : p.2 with
    | none => simpa using hm
    | some d =>
      simp only
      split
      · exact hm
      · exact List.mem_append_left _ hm

theorem groupNames_complete (ns : List (String × Option NodeData)) :
    ∀ (acc : List String) (p : String × Option NodeData) (d : NodeData),
      p ∈ ns → p.2 = some d → d.name.isEmpty = false →
      d.name ∈ ns.foldl
        (fun acc p =>
          match p.2 with
          | none => acc
          | some d => if d.name.isEmpty ∨ d.name ∈ acc then acc else acc ++ [d.name])
        acc := by
  induction ns with
  | nil => intro acc p d hp; simp at hp
  | cons q rest ih =>
    intro acc p d hp hpd hname
    simp only [List.foldl_cons]
    rcases List.mem_cons.1 hp with rfl | hp'
    · rw [hpd]
      simp only
      by_cases hmem : d.name ∈ acc
      · apply groupNames_mono
        simp [hname, hmem]
      · apply groupNames_mono
        simp [hname, hmem]
    · exact ih _ p d hp' hpd hname

theorem groupNames_nodup (ns : List (String × Option NodeData)) :
    ∀ (acc : List String), acc.Nodup →
      (ns.foldl
        (fun acc p =>
          match p.2 with
          | none => acc
          | some d => if d.name.isEmpty ∨ d.name ∈ acc then acc else acc ++ [d.name])
        acc).Nodup := by
  induction ns with
  | nil => intro acc h; simpa using h
  | cons p rest ih =>
    intro acc hacc
    simp only [List.foldl_cons]
    apply ih
    cases h : p.2 with
    | none => simpa using hacc
    | some d =>
      simp only
      split
      · exact hacc
      · next hcond =>
        rw [List.nodup_append]
        refine ⟨hacc, List.nodup_singleton _, ?_⟩
        intro x hx
        simp only [List.mem_singleton]
        rintro rfl
        exact hcond (Or.inr hx)

theorem mem_mergeGroups (ns : List (String × Option NodeData))
    (n : String) (ids : List String) :
    (n, ids) ∈ mergeGroups ns ↔ n ∈ groupNames ns ∧ ids = bucketOf ns n := by
  simp only [mergeGroups, List.mem_map]
  constructor
  · rintro ⟨m, hm, heq⟩
    obtain ⟨rfl, rfl⟩ := Prod.mk.injEq .. ▸ heq
    exact ⟨hm, rfl⟩
  · rintro ⟨hm, rfl⟩
    exact ⟨n, hm, rfl⟩

theorem mergeGroups_names (ns : List (String × Option NodeData)) :
    (mergeGroups ns).map Prod.fst = groupNames ns := by
  simp [mergeGroups, List.map_map, Function.comp_def]

theorem bucketOf_length (ns : List (String × Option NodeData)) (n : String) :
    (bucketOf ns n).length =
      (ns.filter (fun p => p.2.any (fun d => d.name = n))).length := by
  simp [bucketOf]

theorem mem_bucketOf (ns : List (String × Option NodeData)) (n : String)
    (p : String × Option NodeData) (hp : p ∈ ns)
    (hname : p.2.any (fun d => d.name = n) = true) :
    p.1 ∈ bucketOf ns n := by
  exact List.mem_map.2 ⟨p, List.mem_filter.2 ⟨hp, hname⟩, rfl⟩

theorem minByScore_mem (g : NxGraph) (ids : List String) (x : String)
    (h : minByScore g ids = some x) : x ∈ ids := by
  cases ids with
  | nil => simp [minByScore] at h
  | cons y ys =>
    simp only [minByScore, Option.some.injEq] at h
    subst h
    have : ∀ (zs : List String) (b : String), b ∈ y :: ys → zs ⊆ y :: ys →
        zs.foldl (fun best nid =>
          if scoreLt (mergeScore g nid) (mergeScore g best) then nid else best) b ∈ y :: ys := by
      intro zs
      induction zs with
      | nil => intro b hb _; simpa using hb
      | cons z zs ih =>
        intro b hb hsub
        simp only [List.foldl_cons]
        apply ih
        · split
          · exact hsub (List.mem_cons_self _ _)
          · exact hb
        · exact fun a ha => hsub (List.mem_cons_of_mem _ ha)
    exact this ys y (List.mem_cons_self _ _) (fun a ha => List.mem_cons_of_mem _ ha)

theorem collectRedirect_endpoints (g : NxGraph) (can nid : String)
    (hcan : g.has_node can = true) :
    ∀ e ∈ (collectRedirect g can nid).1, g.has_node e.1 = true ∧ g.has_node e.2.1 = true := by
  unfold collectRedirect
  have main : ∀ (es : List (String × String × EdgeData))
      (acc : List (String × String × EdgeData) × List (String × String)),
      (∀ e ∈ acc.1, g.has_node e.1 = true ∧ g.has_node e.2.1 = true) →
      ∀ e ∈ (es.foldl
        (fun acc e =>
          let (u, v, d) := e
          let acc :=
            if v = nid ∧ g.has_node u then
              ((if ¬g.has_edge u can then acc.1 ++ [(u, can, d)] else acc.1),
               acc.2 ++ [(u, v)])
            else acc
          if u = nid ∧ g.has_node v then
            ((if ¬g.has_edge can v then acc.1 ++ [(can, v, d)] else acc.1),
             acc.2 ++ [(u, v)])
          else acc) acc).1,
        g.has_node e.1 = true ∧ g.has_node e.2.1 = true := by
    intro es
    induction es with
    | nil => intro acc hacc e he; exact hacc e he
    | cons f fs ih =>
      intro acc hacc e he
      refine ih _ ?_ e he
      obtain ⟨u, v, d⟩ := f
      intro e' he'
      dsimp only at he'
      by_cases h1 : v = nid ∧ g.has_node u = true
      · rw [if_pos h1] at he'
        by_cases h2 : u = nid ∧ g.has_node v = true
        · rw [if_pos h2] at he'
          dsimp only at he'
          split at he'
          · rcases List.mem_append.1 he' with h' | h'
            · split at h'
              · rcases List.mem_append.1 h' with h'' | h''
                · exact hacc _ h''
                · simp only [List.mem_singleton] at h''
                  subst h''
                  exact ⟨h1.2, hcan⟩
              · exact hacc _ h'
            · simp only [List.mem_singleton] at h'
              subst h'
              exact ⟨hcan, h2.2⟩
          · split at he'
            · rcases List.mem_append.1 he' with h' | h'
              · exact hacc _ h'
              · simp only [List.mem_singleton] at h'
                subst h'
                exact ⟨h1.2, hcan⟩
            · exact hacc _ he'
        · rw [if_neg h2] at he'
          dsimp only at he'
          split at he'
          · rcases List.mem_append.1 he' with h' | h'
            · exact hacc _ h'
            · simp only [List.mem_singleton] at h'
              subst h'
              exact ⟨h1.2, hcan⟩
          · exact hacc _ he'
      · rw [if_neg h1] at he'
        by_cases h2 : u = nid ∧ g.has_node v = true
        · rw [if_pos h2] at he'
          dsimp only at he'
          split at he'
          · rcases List.mem_append.1 he' with h' | h'
            · exact hacc _ h'
            · simp only [List.mem_singleton] at h'
              subst h'
              exact ⟨hcan, h2.2⟩
          · exact hacc _ he'
        · rw [if_neg h2] at he'
          exact hacc _ he'
  intro e he
  exact main g.edges ([], []) (by simp) e he

theorem add_edge_nodes (g : NxGraph) (u v : String) (d : EdgeData)
    (hu : g.has_node u = true) (hv : g.has_node v = true) :
    (g.add_edge u v d).nodes = g.nodes := by
  simp [NxGraph.add_edge, hu, hv]
  split <;> rfl

theorem addFold_nodes (L : List (String × String × EdgeData)) :
    ∀ (g : NxGraph),
      (∀ e ∈ L, g.has_node e.1 = true ∧ g.has_node e.2.1 = true) →
      (L.foldl (fun g e => g.add_edge e.1 e.2.1 e.2.2) g).nodes = g.nodes := by
  induction L with
  | nil => intro g _; rfl
  | cons e L ih =>
    intro g hL
    simp only [List.foldl_cons]
    have h1 : (g.add_edge e.1 e.2.1 e.2.2).nodes = g.nodes :=
      add_edge_nodes g e.1 e.2.1 e.2.2 (hL e (List.mem_cons_self _ _)).1
        (hL e (List.mem_cons_self _ _)).2
    rw [ih _ ?_, h1]
    intro f hf
    have := hL f (List.mem_cons_of_mem _ hf)
    simpa [NxGraph.has_node, h1] using this

theorem removeFold_nodes (L : List (String × String)) :
    ∀ (g : NxGraph),
      (L.foldl (fun g e => if g.has_edge e.1 e.2 then g.remove_edge e.1 e.2 else g) g).nodes
        = g.nodes := by
  induction L with
  | nil => intro g; rfl
  | cons e L ih =>
    intro g
    simp only [List.foldl_cons]
    rw [ih]
    split <;> rfl

theorem applyRedirect_nodes (g : NxGraph) (can nid : String)
    (hcan : g.has_node can = true) :
    (applyRedirect g can nid).nodes = g.nodes.filter (fun p => p.1 ≠ nid) := by
  unfold applyRedirect
  have h1 : ((collectRedirect g can nid).1.foldl
      (fun g e => g.add_edge e.1 e.2.1 e.2.2) g).nodes = g.nodes :=
    addFold_nodes _ g (collectRedirect_endpoints g can nid hcan)
  have h2 : (((collectRedirect g can nid).2).foldl
      (fun g e => if g.has_edge e.1 e.2 then g.remove_edge e.1 e.2 else g)
      ((collectRedirect g can nid).1.foldl (fun g e => g.add_edge e.1 e.2.1 e.2.2) g)).nodes
      = g.nodes := by rw [removeFold_nodes, h1]
  simp only
  split
  · next hn =>
    simp only [NxGraph.remove_node, h2]
  · next hn =>
    rw [h2]
    have hnone : ∀ p ∈ g.nodes, p.1 ≠ nid := by
      intro p hp
      simp only [NxGraph.has_node] at hn
      rw [h2] at hn
      rw [Bool.not_eq_true, List.any_eq_false] at hn
      have := hn p hp
      simpa using this
    symm
    apply List.filter_eq_self.2
    intro p hp
    exact decide_eq_true (hnone p hp)

/-- Number of nodes of `ns` whose payload carries the simple name `n`
(the length of `bucketOf ns n`). -/
def namedCount (ns : List (String × Option NodeData)) (n : String) : Nat :=
  (ns.filter (fun p => p.2.any (fun d => d.name = n))).length

theorem nodupKeys_inj {α β : Type} :
    ∀ (ns : List (α × β)), (ns.map Prod.fst).Nodup →
      ∀ p ∈ ns, ∀ q ∈ ns, p.1 = q.1 → p = q := by
  intro ns
  induction ns with
  | nil => intro _ p hp; simp at hp
  | cons r rest ih =>
    intro hnd p hp q hq heq
    rw [List.map_cons, List.nodup_cons] at hnd
    rcases List.mem_cons.1 hp with rfl | hp' <;>
      rcases List.mem_cons.1 hq with rfl | hq'
    · rfl
    · exact absurd (heq ▸ List.mem_map_of_mem Prod.fst hq') hnd.1
    · exact absurd (heq ▸ List.mem_map_of_mem Prod.fst hp') hnd.1
    · exact ih hnd.2 p hp' q hq' heq

theorem length_le_one_of_key_const {α β : Type} (l ns : List (α × β)) (c : α)
    (hsub : l.Sublist ns) (hnd : (ns.map Prod.fst).Nodup)
    (hall : ∀ p ∈ l, p.1 = c) : l.length ≤ 1 := by
  have hlnd : (l.map Prod.fst).Nodup := (hnd.sublist (hsub.map Prod.fst))
  match l, hall with
  | [], _ => simp
  | [p], _ => simp
  | p :: q :: rest, hall =>
    exfalso
    rw [List.map_cons, List.map_cons, List.nodup_cons] at hlnd
    exact hlnd.1 (by
      rw [hall p (by simp), hall q (by simp)] at *
      simp [hall q (by simp)])

theorem namedCount_filter_le (ns : List (String × Option NodeData))
    (pr : String × Option NodeData → Bool) (n : String) :
    namedCount (ns.filter pr) n ≤ namedCount ns n := by
  unfold namedCount
  rw [List.filter_comm]
  exact List.length_filter_le _ _

/-- Nodes after the inner loop of `processGroup`: exactly the group's
non-canonical ids are deleted. -/
theorem processIds_nodes (can : String) :
    ∀ (ids : List String) (h : NxGraph), h.has_node can = true →
      (ids.foldl (fun g nid =>
          if nid = can then g
          else if ¬g.has_node nid then g
          else applyRedirect g can nid) h).nodes
        = h.nodes.filter (fun p => decide ¬(p.1 ∈ ids ∧ p.1 ≠ can)) := by
  intro ids
  induction ids with
  | nil =>
    intro h hcan
    simp
  | cons nid rest ih =>
    intro h hcan
    simp only [List.foldl_cons]
    by_cases h1 : nid = can
    · subst h1
      rw [if_pos rfl, ih h hcan]
      apply List.filter_congr
      intro p _
      by_cases hB : p.1 ∈ rest <;> by_cases hC : p.1 = nid <;>
        simp [hB, hC]
    · rw [if_neg h1]
      by_cases h2 : h.has_node nid = true
      · rw [if_neg (by simp [h2])]
        have hcan' : (applyRedirect h can nid).has_node can = true := by
          rw [NxGraph.has_node, applyRedirect_nodes h can nid hcan]
          rw [NxGraph.has_node, List.any_eq_true] at hcan
          obtain ⟨p, hp, hpc⟩ := hcan
          rw [List.any_eq_true]
          refine ⟨p, List.mem_filter.2 ⟨hp, ?_⟩, hpc⟩
          simp only [decide_eq_true_eq] at hpc ⊢
          rw [hpc]
          exact fun hcon => h1 hcon.symm
        rw [ih _ hcan', applyRedirect_nodes h can nid hcan, List.filter_filter]
        apply List.filter_congr
        intro p _
        by_cases hA : p.1 = nid <;> by_cases hB : p.1 ∈ rest <;> by_cases hC : p.1 = can <;>
          first
            | exact absurd (hA.symm.trans hC) h1
            | (simp [hA, hB, hC] <;> first | exact h1 | exact fun hc => h1 hc.symm)
      · rw [if_pos (by simp [h2]), ih h hcan]
        apply List.filter_congr
        intro p hp
        have hpn : ¬ p.1 = nid := by
          intro hcon
          apply h2
          rw [NxGraph.has_node, List.any_eq_true]
          exact ⟨p, hp, by simp [hcon]⟩
        by_cases hB : p.1 ∈ rest <;> by_cases hC : p.1 = can <;>
          simp [hpn, hB, hC]

theorem namedCount_eq_bucket_length (ns : List (String × Option NodeData)) (n : String) :
    namedCount ns n = (bucketOf ns n).length := by
  simp [namedCount, bucketOf]

theorem bucketOf_mem_inv (ns : List (String × Option NodeData)) (n : String)
    (x : String) (hx : x ∈ bucketOf ns n) :
    ∃ p ∈ ns, p.1 = x ∧ p.2.any (fun d => d.name = n) = true := by
  simp only [bucketOf, List.mem_map, List.mem_filter] at hx
  obtain ⟨p, ⟨hp, hname⟩, rfl⟩ := hx
  exact ⟨p, hp, rfl, hname⟩

theorem bucketOf_has_node (g : NxGraph) (n : String) (x : String)
    (hx : x ∈ bucketOf g.nodes n) : g.has_node x = true := by
  obtain ⟨p, hp, rfl, _⟩ := bucketOf_mem_inv g.nodes n x hx
  rw [NxGraph.has_node, List.any_eq_true]
  exact ⟨p, hp, by simp⟩

theorem processGroup_short (g : NxGraph) (ids : List String)
    (h : ids.length ≤ 1) : processGroup g ids = g := by
  unfold processGroup
  rw [if_pos h]

theorem foldl_processGroup_short :
    ∀ (Gs : List (String × List String)) (h : NxGraph),
      (∀ p ∈ Gs, p.2.length ≤ 1) →
      Gs.foldl (fun g p => processGroup g p.2) h = h := by
  intro Gs
  induction Gs with
  | nil => intro h _; rfl
  | cons q rest ih =>
    intro h hall
    simp only [List.foldl_cons]
    rw [processGroup_short h q.2 (hall q (List.mem_cons_self _ _))]
    exact ih h fun p hp => hall p (List.mem_cons_of_mem _ hp)

/-- `processGroup` only filters nodes, and never removes a node whose id is
outside the processed group. -/
theorem processGroup_sub (h : NxGraph) (ids : List String)
    (hpres : ∀ id ∈ ids, h.has_node id = true) :
    ∃ pr : String × Option NodeData → Bool,
      (processGroup h ids).nodes = h.nodes.filter pr ∧
      ∀ p : String × Option NodeData, p.1 ∉ ids → pr p = true := by
  unfold processGroup
  split
  · exact ⟨fun _ => true, by simp, fun _ _ => rfl⟩
  · next hlen =>
    cases hmin : minByScore h ids with
    | none =>
      simp only [hmin]
      exact ⟨fun _ => true, by simp, fun _ _ => rfl⟩
    | some can =>
      have hcan : h.has_node can = true := hpres can (minByScore_mem h ids can hmin)
      simp only [hmin]
      refine ⟨fun p => decide ¬(p.1 ∈ ids ∧ p.1 ≠ can), ?_, ?_⟩
      · exact processIds_nodes can ids h hcan
      · intro p hp
        simp [hp]

/-- After processing the group of name `n`, at most one node named `n`
remains. -/
theorem processGroup_count (g h : NxGraph) (n : String)
    (hnd : (g.nodes.map Prod.fst).Nodup)
    (prh : String × Option NodeData → Bool) (hsub : h.nodes = g.nodes.filter prh)
    (hpres : ∀ id ∈ bucketOf g.nodes n, h.has_node id = true) :
    namedCount (processGroup h (bucketOf g.nodes n)).nodes n ≤ 1 := by
  unfold processGroup
  split
  · next hlen =>
    calc namedCount h.nodes n ≤ namedCount g.nodes n := by
          rw [hsub]; exact namedCount_filter_le g.nodes prh n
      _ = (bucketOf g.nodes n).length := namedCount_eq_bucket_length g.nodes n
      _ ≤ 1 := hlen
  · next hlen =>
    cases hmin : minByScore h (bucketOf g.nodes n) with
    | none =>
      exfalso
      apply hlen
      cases hb : bucketOf g.nodes n with
      | nil => simp [hb]
      | cons x xs => rw [hb] at hmin; simp [minByScore] at hmin
    | some can =>
      have hcan : h.has_node can = true :=
        hpres can (minByScore_mem h _ can hmin)
      simp only [hmin]
      rw [processIds_nodes can _ h hcan]
      unfold namedCount
      set L := (h.nodes.filter
          (fun p => decide ¬(p.1 ∈ bucketOf g.nodes n ∧ p.1 ≠ can))).filter
          (fun p => p.2.any (fun d => d.name = n)) with hL
      have hsubl : L.Sublist g.nodes := by
        refine ((List.filter_sublist _).trans ((List.filter_sublist _).trans ?_))
        rw [hsub]
        exact List.filter_sublist _
      refine length_le_one_of_key_const L g.nodes can hsubl hnd ?_
      intro p hp
      rw [hL] at hp
      have hkeep := (List.mem_filter.1 (List.mem_filter.1 hp).1).2
      have hname := (List.mem_filter.1 hp).2
      have hpg : p ∈ g.nodes := by
        have := (List.mem_filter.1 (List.mem_filter.1 hp).1).1
        rw [hsub] at this
        exact (List.mem_filter.1 this).1
      have hbucket : p.1 ∈ bucketOf g.nodes n := mem_bucketOf g.nodes n p hpg hname
      simp only [decide_eq_true_eq] at hkeep
      by_contra hcon
      exact hkeep ⟨hbucket, hcon⟩

theorem groupNames_sound (ns : List (String × Option NodeData)) :
    ∀ (acc : List String) (n : String),
      n ∈ ns.foldl
        (fun acc p =>
          match p.2 with
          | none => acc
          | some d => if d.name.isEmpty ∨ d.name ∈ acc then acc else acc ++ [d.name])
        acc →
      n ∈ acc ∨ ∃ p ∈ ns, ∃ d, p.2 = some d ∧ d.name = n ∧ d.name.isEmpty = false := by
  induction ns with
  | nil => intro acc n hn; exact Or.inl (by simpa using hn)
  | cons q rest ih =>
    intro acc n hn
    simp only [List.foldl_cons] at hn
    rcases ih _ n hn with hacc | ⟨p, hp, d, hpd, hdn, hde⟩
    · cases hq : q.2 with
      | none =>
        rw [hq] at hacc
        exact Or.inl hacc
      | some d =>
        rw [hq] at hacc
        simp only at hacc
        split at hacc
        · exact Or.inl hacc
        · next hcond =>
          rcases List.mem_append.1 hacc with h' | h'
          · exact Or.inl h'
          · simp only [List.mem_singleton] at h'
            subst h'
            refine Or.inr ⟨q, List.mem_cons_self _ _, d, hq, rfl, ?_⟩
            rw [not_or] at hcond
            simpa using hcond.1
    · exact Or.inr ⟨p, List.mem_cons_of_mem _ hp, d, hpd, hdn, hde⟩

/-- The main induction: processing the (name, bucket) groups of `g`, each
name's surviving node count drops to at most one, and the node list only
shrinks. -/
theorem mergeFold_main (g : NxGraph) (hnd : (g.nodes.map Prod.fst).Nodup) :
    ∀ (names : List String) (h : NxGraph),
      names.Nodup →
      (∃ pr : String × Option NodeData → Bool, h.nodes = g.nodes.filter pr) →
      (∀ m ∈ names, ∀ id ∈ bucketOf g.nodes m, h.has_node id = true) →
      (∃ pr : String × Option NodeData → Bool,
        ((names.map fun n => (n, bucketOf g.nodes n)).foldl
          (fun acc p => processGroup acc p.2) h).nodes = h.nodes.filter pr) ∧
      ∀ m ∈ names,
        namedCount ((names.map fun n => (n, bucketOf g.nodes n)).foldl
          (fun acc p => processGroup acc p.2) h).nodes m ≤ 1 := by
  intro names
  induction names with
  | nil =>
    intro h _ _ _
    exact ⟨⟨fun _ => true, by simp⟩, by simp⟩
  | cons n rest ih =>
    intro h hnodup hsub hpres
    obtain ⟨prh, hprh⟩ := hsub
    have hpresn : ∀ id ∈ bucketOf g.nodes n, h.has_node id = true :=
      hpres n (List.mem_cons_self _ _)
    obtain ⟨pr1, hpr1, hpr1keep⟩ := processGroup_sub h (bucketOf g.nodes n) hpresn
    set h1 := processGroup h (bucketOf g.nodes n) with hh1
    have hsub1 : ∃ pr : String × Option NodeData → Bool, h1.nodes = g.nodes.filter pr := by
      refine ⟨fun p => pr1 p && prh p, ?_⟩
      rw [hpr1, hprh, List.filter_filter]
    have hpres1 : ∀ m ∈ rest, ∀ id ∈ bucketOf g.nodes m, h1.has_node id = true := by
      intro m hm id hid
      have hidn : id ∉ bucketOf g.nodes n := by
        intro hcon
        obtain ⟨p, hp, hp1, hpname⟩ := bucketOf_mem_inv g.nodes m id hid
        obtain ⟨q, hq, hq1, hqname⟩ := bucketOf_mem_inv g.nodes n id hcon
        have hpq : p = q := nodupKeys_inj g.nodes hnd p hp q hq (hp1.trans hq1.symm)
        subst hpq
        cases hpd : p.2 with
        | none => rw [hpd] at hpname; simp at hpname
        | some d =>
          rw [hpd] at hpname hqname
          simp only [Option.any_some, decide_eq_true_eq] at hpname hqname
          have : m = n := hpname.symm.trans hqname
          subst this
          exact (List.nodup_cons.1 hnodup).1 hm
      have hidh : h.has_node id = true := hpres m (List.mem_cons_of_mem _ hm) id hid
      rw [NxGraph.has_node, List.any_eq_true] at hidh
      obtain ⟨p, hp, hpid⟩ := hidh
      rw [NxGraph.has_node, hpr1, List.any_eq_true]
      refine ⟨p, List.mem_filter.2 ⟨hp, ?_⟩, hpid⟩
      apply hpr1keep
      simp only [decide_eq_true_eq] at hpid
      rw [hpid]
      exact hidn
    have hfold : ((n :: rest).map fun n => (n, bucketOf g.nodes n)).foldl
        (fun acc p => processGroup acc p.2) h
        = (rest.map fun n => (n, bucketOf g.nodes n)).foldl
          (fun acc p => processGroup acc p.2) h1 := by
      simp [hh1]
    obtain ⟨⟨pr2, hpr2⟩, hcounts2⟩ :=
      ih h1 (List.nodup_cons.1 hnodup).2 hsub1 hpres1
    constructor
    · refine ⟨fun p => pr2 p && pr1 p, ?_⟩
      rw [hfold, hpr2, hpr1, List.filter_filter]
    · intro m hm
      rcases List.mem_cons.1 hm with rfl | hm'
      · rw [hfold]
        calc namedCount ((rest.map fun n => (n, bucketOf g.nodes n)).foldl
              (fun acc p => processGroup acc p.2) h1).nodes m
            ≤ namedCount h1.nodes m := by
              rw [hpr2]; exact namedCount_filter_le _ _ _
          _ ≤ 1 := processGroup_count g h m hnd prh hprh hpresn
      · rw [hfold]
        exact hcounts2 m hm'

/-- After one `merge_nodes_by_reference`, every grouped simple name is
carried by at most one node, and the node list is a filtering of the
original. -/
theorem merge_sub_and_counts (g : NxGraph) (hnd : (g.nodes.map Prod.fst).Nodup) :
    (∃ pr : String × Option NodeData → Bool,
      (merge_nodes_by_reference g).nodes = g.nodes.filter pr) ∧
    ∀ m ∈ groupNames g.nodes,
      namedCount (merge_nodes_by_reference g).nodes m ≤ 1 := by
  have := mergeFold_main g hnd (groupNames g.nodes) g
    (groupNames_nodup g.nodes [] List.nodup_nil)
    ⟨fun _ => true, by simp⟩
    (fun m _ id hid => bucketOf_has_node g m id hid)
  exact this

/-! ## Claims C2 and C3 -/

/-- C2: for every graph with exactly two nodes `A` and `B` sharing a simple
name — `A` with a truthy source file in its dumped metadata, `B` without —
plus a third node `C` of a different name, inserted in any of the six
possible orders, with the single edge `C→B`: one run of
`merge_nodes_by_reference` keeps `A` as the canonical node, removes `B`,
creates the edge `C→A` and leaves no edge `C→B`.  (The colon hypotheses
restrict to composite ids, on which Python's `nid.split(":", 1)[1]` in the
score function is defined.) -/
theorem merge_canonicalizes_duplicate_name
    (aId bId cId n m asrc : String) (bsrc csrc : Option String)
    (d : EdgeData) (g : NxGraph)
    (hn : n.isEmpty = false) (hm : m.isEmpty = false) (hmn : m ≠ n)
    (hab : aId ≠ bId) (hac : aId ≠ cId) (hbc : bId ≠ cId)
    (_hcolA : aId.data.contains ':' = true) (_hcolB : bId.data.contains ':' = true)
    (htA : truthy (some asrc) = true) (htB : truthy bsrc = false)
    (horder :
      g.nodes = [(aId, some ⟨n, some asrc⟩), (bId, some ⟨n, bsrc⟩), (cId, some ⟨m, csrc⟩)] ∨
      g.nodes = [(aId, some ⟨n, some asrc⟩), (cId, some ⟨m, csrc⟩), (bId, some ⟨n, bsrc⟩)] ∨
      g.nodes = [(bId, some ⟨n, bsrc⟩), (aId, some ⟨n, some asrc⟩), (cId, some ⟨m, csrc⟩)] ∨
      g.nodes = [(bId, some ⟨n, bsrc⟩), (cId, some ⟨m, csrc⟩), (aId, some ⟨n, some asrc⟩)] ∨
      g.nodes = [(cId, some ⟨m, csrc⟩), (aId, some ⟨n, some asrc⟩), (bId, some ⟨n, bsrc⟩)] ∨
      g.nodes = [(cId, some ⟨m, csrc⟩), (bId, some ⟨n, bsrc⟩), (aId, some ⟨n, some asrc⟩)])
    (hedges : g.edges = [(cId, bId, d)]) :
    (merge_nodes_by_reference g).has_node aId = true ∧
    (merge_nodes_by_reference g).has_node bId = false ∧
    (merge_nodes_by_reference g).has_node cId = true ∧
    (merge_nodes_by_reference g).has_edge cId aId = true ∧
    (merge_nodes_by_reference g).has_edge cId bId = false := by
  rcases horder with h|h|h|h|h|h <;>
    refine C2core g n m aId bId cId d ?_ ?_ ?_ ?_ ?_ hedges hab (Ne.symm hbc) <;>
    simp [h, mergeGroups, groupNames, bucketOf, mergeScore, NxGraph.dataOf, lookupA, scoreLt,
      NxGraph.has_node, hn, hm, hmn, Ne.symm hmn, hab, Ne.symm hab, hac, Ne.symm hac,
      hbc, Ne.symm hbc, htA, htB]

/-- Witness for C2, instantiated with the exact scenario of the repository's
own `test_merge_nodes_by_reference`. -/
theorem merge_canonicalizes_duplicate_name_witness :
    (merge_nodes_by_reference
      ⟨[("function:dummy.Test", some ⟨"Test", some "dummy.py"⟩),
        ("function:dummy_alt.Test", some ⟨"Test", none⟩),
        ("function:dummy.func", some ⟨"func", some "dummy.py"⟩)],
       [("function:dummy.func", "function:dummy_alt.Test", ⟨"calls"⟩)]⟩).has_node
      "function:dummy.Test" = true ∧
    (merge_nodes_by_reference
      ⟨[("function:dummy.Test", some ⟨"Test", some "dummy.py"⟩),
        ("function:dummy_alt.Test", some ⟨"Test", none⟩),
        ("function:dummy.func", some ⟨"func", some "dummy.py"⟩)],
       [("function:dummy.func", "function:dummy_alt.Test", ⟨"calls"⟩)]⟩).has_node
      "function:dummy_alt.Test" = false ∧
    (merge_nodes_by_reference
      ⟨[("function:dummy.Test", some ⟨"Test", some "dummy.py"⟩),
        ("function:dummy_alt.Test", some ⟨"Test", none⟩),
        ("function:dummy.func", some ⟨"func", some "dummy.py"⟩)],
       [("function:dummy.func", "function:dummy_alt.Test", ⟨"calls"⟩)]⟩).has_node
      "function:dummy.func" = true ∧
    (merge_nodes_by_reference
      ⟨[("function:dummy.Test", some ⟨"Test", some "dummy.py"⟩),
        ("function:dummy_alt.Test", some ⟨"Test", none⟩),
        ("function:dummy.func", some ⟨"func", some "dummy.py"⟩)],
       [("function:dummy.func", "function:dummy_alt.Test", ⟨"calls"⟩)]⟩).has_edge
      "function:dummy.func" "function:dummy.Test" = true ∧
    (merge_nodes_by_reference
      ⟨[("function:dummy.Test", some ⟨"Test", some "dummy.py"⟩),
        ("function:dummy_alt.Test", some ⟨"Test", none⟩),
        ("function:dummy.func", some ⟨"func", some "dummy.py"⟩)],
       [("function:dummy.func", "function:dummy_alt.Test", ⟨"calls"⟩)]⟩).has_edge
      "function:dummy.func" "function:dummy_alt.Test" = false :=
  merge_canonicalizes_duplicate_name
    "function:dummy.Test" "function:dummy_alt.Test" "function:dummy.func"
    "Test" "func" "dummy.py" none (some "dummy.py") ⟨"calls"⟩ _
    (by decide) (by decide) (by decide) (by decide) (by decide) (by decide)
    (by decide) (by decide) (by decide) (by decide)
    (Or.inl rfl) rfl

/-- C3: `merge_nodes_by_reference` is idempotent — on any graph whose node
ids are distinct (NetworkX guarantees this) a second run returns exactly
the same graph, node list and edge list alike: after one run no two
remaining named nodes share a simple name, so every group of the second
run is a singleton and is skipped.  (The colon hypothesis restricts to
composite ids, on which Python's `score` is defined; it is not otherwise
used.) -/
theorem merge_nodes_by_reference_idempotent (g : NxGraph)
    (hnd : (g.nodes.map Prod.fst).Nodup)
    (_hcol : ∀ p ∈ g.nodes, p.1.data.contains ':' = true) :
    merge_nodes_by_reference (merge_nodes_by_reference g) = merge_nodes_by_reference g := by
  obtain ⟨⟨pr, hpr⟩, hcounts⟩ := merge_sub_and_counts g hnd
  have hshort : ∀ p ∈ mergeGroups (merge_nodes_by_reference g).nodes, p.2.length ≤ 1 := by
    rintro ⟨n, ids⟩ hp
    rw [mem_mergeGroups] at hp
    obtain ⟨hn, rfl⟩ := hp
    rcases groupNames_sound (merge_nodes_by_reference g).nodes [] n hn with hfalse | hsound
    · simp at hfalse
    obtain ⟨q, hq, d, hqd, hdn, hde⟩ := hsound
    have hqg : q ∈ g.nodes := by
      rw [hpr] at hq
      exact (List.mem_filter.1 hq).1
    have hng : n ∈ groupNames g.nodes := by
      rw [← hdn]
      exact groupNames_complete g.nodes [] q d hqg hqd hde
    rw [← namedCount_eq_bucket_length]
    exact hcounts n hng
  conv_lhs => rw [merge_nodes_by_reference]
  exact foldl_processGroup_short _ _ hshort

/-- Witness for C3 at the concrete graph of the repository's merge test. -/
theorem merge_nodes_by_reference_idempotent_witness :
    merge_nodes_by_reference (merge_nodes_by_reference
      ⟨[("function:dummy.Test", some ⟨"Test", some "dummy.py"⟩),
        ("function:dummy_alt.Test", some ⟨"Test", none⟩),
        ("function:dummy.func", some ⟨"func", some "dummy.py"⟩)],
       [("function:dummy.func", "function:dummy_alt.Test", ⟨"calls"⟩)]⟩) =
    merge_nodes_by_reference
      ⟨[("function:dummy.Test", some ⟨"Test", some "dummy.py"⟩),
        ("function:dummy_alt.Test", some ⟨"Test", none⟩),
        ("function:dummy.func", some ⟨"func", some "dummy.py"⟩)],
       [("function:dummy.func", "function:dummy_alt.Test", ⟨"calls"⟩)]⟩ :=
  merge_nodes_by_reference_idempotent _ (by decide) (by decide)

end Codebase

/-! ## Claim C4 -/

namespace Codebase

theorem candScore_nonneg (st : VState) (node_id : String) : 0 ≤ candScore st node_id := by
  unfold candScore
  split
  · split <;> norm_num
  · norm_num

/-- C4: with exactly two candidates recorded for a simple name,
`lookup_node` returns the id whose node carries a (truthy) source-file
path — score 1 beats score 0 — regardless of which entry was inserted
first; and when the scores are equal it returns the candidate with the
lexicographically smallest package path (the incumbent's package being
re-derived from its id, hence the `pkgOfId id1 = p1` hypothesis, which
holds for every entry the visitor itself records). -/
theorem lookup_node_prefers_source (st : VState) (name p1 p2 id1 id2 : String)
    (htab : lookupA name st.reference_table = some [(p1, id1), (p2, id2)]) :
    (candScore st id1 = 1 → candScore st id2 = 0 → lookup_node st name = some id1) ∧
    (candScore st id1 = 0 → candScore st id2 = 1 → lookup_node st name = some id2) ∧
    (candScore st id1 = candScore st id2 → pkgOfId id1 = p1 → p1 ≠ p2 →
      (p1 < p2 → lookup_node st name = some id1) ∧
      (p2 < p1 → lookup_node st name = some id2)) := by
  refine ⟨?_, ?_, ?_⟩
  · intro hs1 hs2
    simp [lookup_node, htab, lookupStep, hs1, hs2]
  · intro hs1 hs2
    simp [lookup_node, htab, lookupStep, hs1, hs2]
  · intro hseq hpkg hne
    have hpos : (-1 : Int) < candScore st id2 :=
      lt_of_lt_of_le (by norm_num) (candScore_nonneg st id2)
    constructor
    · intro hlt
      have hnot : ¬ p2 < p1 := asymm hlt
      simp [lookup_node, htab, lookupStep, hseq, hpkg, hnot, hpos]
    · intro hlt
      simp [lookup_node, htab, lookupStep, hseq, hpkg, hlt, hpos]

/-- Witness for C4: the fixtures above, covering both insertion orders of
the sourced candidate and the equal-score tie broken by the smaller
package. -/
theorem lookup_node_prefers_source_witness :
    lookup_node fixtureSourcedSecond "n" = some "function:a.n" ∧
    lookup_node fixtureSourcedFirst "n" = some "function:a.n" ∧
    lookup_node fixtureTie "n" = some "function:a.n" :=
  ⟨(lookup_node_prefers_source fixtureSourcedSecond "n" "b" "a"
      "function:b.n" "function:a.n" rfl).2.1 (by decide) (by decide),
   (lookup_node_prefers_source fixtureSourcedFirst "n" "a" "b"
      "function:a.n" "function:b.n" rfl).1 (by decide) (by decide),
   ((lookup_node_prefers_source fixtureTie "n" "b" "a"
      "function:b.n" "function:a.n" rfl).2.2 (by decide) (by decide)
      (by decide)).2 (String.lt_iff_toList_lt.2 (by decide))⟩

end Codebase

/-! ## Claim C5 -/

namespace Codebase

theorem lookupA_insertA_self {α : Type} (k : String) (v : α) :
    ∀ l : List (String × α), lookupA k (insertA k v l) = some v := by
  intro l
  induction l with
  | nil => simp [lookupA, insertA]
  | cons p rest ih =>
    by_cases h : p.1 = k
    · simp [lookupA, insertA, h]
    · simp [lookupA, insertA, h, ih]

theorem lookupA_insertA_ne {α : Type} (k k' : String) (v : α) (hk : k' ≠ k) :
    ∀ l : List (String × α), lookupA k' (insertA k v l) = lookupA k' l := by
  intro l
  induction l with
  | nil => simp [lookupA, insertA, Ne.symm hk]
  | cons p rest ih =>
    by_cases h : p.1 = k
    · subst h
      simp [lookupA, insertA, Ne.symm hk]
    · by_cases h2 : p.1 = k'
      · subst h2
        simp [lookupA, insertA, h, hk]
      · simp [lookupA, insertA, h, h2, ih]

/-- Counterexample to C5 as stated: in `visitor.py`, a stored entry whose
node lacks source-file metadata is replaced by a new id even though the
new node *also* lacks source-file metadata — replacement does not require
the newcomer to carry a source file. -/
theorem update_reference_table_replaces_unsourced_counterexample :
    truthy unsourcedNewNode.metadata.source_file = false ∧
    storedId fixtureStoredUnsourced "n" "p" = some "class:p.n" ∧
    storedId (update_reference_table fixtureStoredUnsourced unsourcedNewNode) "n" "p"
      = some "function:p.n" := by
  refine ⟨rfl, rfl, ?_⟩
  decide

/-- C5 (amended): (a) in `visitor.py`, an entry whose stored node is
present and has truthy source-file metadata is never replaced — once a
definition is recorded for a `(name, package)` pair it is never
downgraded; (b) in `visitor.py`, when the stored entry is empty, missing
from the node map, or lacks truthy source-file metadata, it is replaced by
the new node's id *regardless of the new node's metadata*; (c) only the
`code_visitor.py` variant replaces an existing (nonempty) entry solely
when the stored node lacks truthy source-file metadata and the new node
has it. -/
theorem update_reference_table_policy (st : VState) (node : GraphNode) (eid : String)
    (hstored : storedId st node.name (pkgOfId node.id) = some eid) :
    ((eid.isEmpty = false) →
      ∀ enode, lookupA eid st.graph_nodes = some enode →
        truthy enode.metadata.source_file = true →
        (update_reference_table st node).reference_table = st.reference_table) ∧
    ((eid.isEmpty = true ∨
        (∀ enode, lookupA eid st.graph_nodes = some enode →
          truthy enode.metadata.source_file = false)) →
      storedId (update_reference_table st node) node.name (pkgOfId node.id)
        = some node.id) ∧
    ((eid.isEmpty = false) →
      storedId (update_reference_table_cv st node) node.name (pkgOfId node.id)
        ≠ some eid →
      truthy node.metadata.source_file = true ∧
      ∀ enode, lookupA eid st.graph_nodes = some enode →
        truthy enode.metadata.source_file = false) := by
  cases hname : lookupA node.name st.reference_table with
  | none => simp [storedId, hname, lookupA] at hstored
  | some inner =>
    rw [storedId, hname] at hstored
    simp only [Option.getD_some] at hstored
    refine ⟨?_, ?_, ?_⟩
    · intro heid enode henode hgood
      simp [update_reference_table, hname, hstored, heid, henode, hgood]
    · intro hbad
      have hskip : (match lookupA eid st.graph_nodes with
          | some en => truthy en.metadata.source_file
          | none => false) = false ∨ eid.isEmpty = true := by
        rcases hbad with h | h
        · exact Or.inr h
        · cases hg : lookupA eid st.graph_nodes with
          | none => exact Or.inl rfl
          | some en => exact Or.inl (h en hg)
      rcases hskip with h | h <;>
        simp [update_reference_table, storedId, hname, hstored, h,
          lookupA_insertA_self]
    · intro heid hch
      by_cases hgood : (match lookupA eid st.graph_nodes with
          | some en => truthy en.metadata.source_file
          | none => false) = true
      · exfalso
        apply hch
        simp [update_reference_table_cv, storedId, hname, hstored, heid, hgood]
      · rw [Bool.not_eq_true] at hgood
        by_cases hnew : truthy node.metadata.source_file = true
        · refine ⟨hnew, fun enode henode => ?_⟩
          rw [henode] at hgood
          simpa using hgood
        · exfalso
          apply hch
          rw [Bool.not_eq_true] at hnew
          simp [update_reference_table_cv, storedId, hname, hstored, heid, hgood, hnew]

/-- Witness for C5 (amended): a sourced entry survives an unsourced
update, and an unsourced entry is upgraded by a sourced one. -/
theorem update_reference_table_policy_witness :
    (update_reference_table fixtureStoredSourced unsourcedNewNode).reference_table
      = fixtureStoredSourced.reference_table ∧
    storedId (update_reference_table fixtureStoredUnsourced sourcedNewNode) "n" "p"
      = some "function:p.n" :=
  ⟨(update_reference_table_policy fixtureStoredSourced unsourcedNewNode "class:p.n"
      rfl).1 (by decide)
      { id := "class:p.n", name := "n", node_type := .CLASS,
        metadata := { source_file := some "p.py" } } rfl (by decide),
   (update_reference_table_policy fixtureStoredUnsourced sourcedNewNode "class:p.n"
      rfl).2.1
      (Or.inr fun enode henode => by
        rw [show lookupA "class:p.n" fixtureStoredUnsourced.graph_nodes =
            some { id := "class:p.n", name := "n", node_type := .CLASS } from rfl]
          at henode
        cases henode
        rfl)⟩

end Codebase

/-! ## Claim C7 -/

namespace Codebase

/-- C7 is a code bug: `read_python_file` only swallows I/O and decode
errors, and nothing in `build_project_graph` or `build_from_code` catches
the `SyntaxError` that `ast.parse` raises, so one unparsable file aborts
the whole build instead of being skipped.  Concretely: a project with a
well-formed `a.py` followed by an unparsable `bad.py` propagates the
syntax error out of `build_project_graph`, and no graph is returned —
contradicting the spec's "reported and skipped" contract. -/
theorem build_project_graph_propagates_syntax_error :
    build_project_graph (fun _ => none)
      [⟨"/r/a.py", ["a.py"],
        some (.ok ⟨some "Module A docstring", [.funcDef "func_a" [] none []]⟩)⟩,
       ⟨"/r/bad.py", ["bad.py"],
        some (.error "SyntaxError: invalid syntax (bad.py, line 1)")⟩]
      = .error "SyntaxError: invalid syntax (bad.py, line 1)" := by
  rfl

end Codebase


namespace Codebase

theorem strData_inj (a b : String) (h : a.data = b.data) : a = b :=
  congrArg String.mk h

theorem splitAtFirst_not_mem (c : Char) :
    ∀ (l : List Char), c ∉ l → splitAtFirst c l = none := by
  intro l
  induction l with
  | nil => intro _; rfl
  | cons x xs ih =>
    intro h
    rw [List.mem_cons, not_or] at h
    simp [splitAtFirst, Ne.symm h.1, ih h.2]

theorem splitAtFirst_append_cons (c : Char) :
    ∀ (l r : List Char), c ∉ l → splitAtFirst c (l ++ c :: r) = some (l, r) := by
  intro l
  induction l with
  | nil => intro r _; simp [splitAtFirst]
  | cons x xs ih =>
    intro r h
    rw [List.mem_cons, not_or] at h
    simp [splitAtFirst, Ne.symm h.1, ih r h.2]

theorem afterColon_module (s : String) : afterColon ("module:" ++ s) = s := by
  unfold afterColon
  rw [String.data_append]
  rw [show "module:".data = "module".data ++ ':' :: [] from rfl]
  rw [List.append_assoc]
  rw [show ([':'] ++ s.data : List Char) = ':' :: s.data from rfl]
  rw [splitAtFirst_append_cons ':' "module".data s.data (by decide)]

theorem splitAll_not_mem (c : Char) :
    ∀ (l : List Char), c ∉ l → splitAll c l = [l] := by
  intro l
  induction l with
  | nil => intro _; rfl
  | cons x xs ih =>
    intro h
    rw [List.mem_cons, not_or] at h
    simp [splitAll, Ne.symm h.1, ih h.2]

theorem splitAll_append_cons (c : Char) :
    ∀ (l r : List Char), c ∉ l → splitAll c (l ++ c :: r) = l :: splitAll c r := by
  intro l
  induction l with
  | nil => intro r _; simp [splitAll]
  | cons x xs ih =>
    intro r h
    rw [List.mem_cons, not_or] at h
    rw [List.cons_append]
    have hih := ih r h.2
    simp [splitAll, Ne.symm h.1, hih]

theorem splitAll_joinCh (c : Char) :
    ∀ (ls : List (List Char)), ls ≠ [] → (∀ l ∈ ls, c ∉ l) →
      splitAll c (joinCh c ls) = ls := by
  intro ls
  induction ls with
  | nil => intro h; exact absurd rfl h
  | cons x rest ih =>
    intro _ hmem
    cases rest with
    | nil =>
      rw [show joinCh c [x] = x from rfl]
      exact splitAll_not_mem c x (hmem x (by simp))
    | cons y ys =>
      rw [show joinCh c (x :: y :: ys) = x ++ c :: joinCh c (y :: ys) from rfl]
      rw [splitAll_append_cons c x _ (hmem x (by simp))]
      rw [ih (by simp) (fun l hl => hmem l (List.mem_cons_of_mem _ hl))]

theorem splitDots_dotJoin (parts : List String) (hne : parts ≠ [])
    (hdots : ∀ s ∈ parts, '.' ∉ s.data) :
    splitDots (dotJoin parts) = parts := by
  unfold splitDots dotJoin
  rw [show (String.mk (joinCh '.' (parts.map String.data))).data
      = joinCh '.' (parts.map String.data) from rfl]
  rw [splitAll_joinCh '.' (parts.map String.data) (by simpa using hne)
    (by
      intro l hl
      rw [List.mem_map] at hl
      obtain ⟨s, hs, rfl⟩ := hl
      exact hdots s hs)]
  rw [List.map_map]
  have hcomp : (String.mk ∘ String.data) = id := funext fun s => rfl
  rw [hcomp, List.map_id]

theorem beforeLastDot_append (X nm : String) (hdot : '.' ∉ nm.data) :
    beforeLastDot (X ++ "." ++ nm) = X := by
  unfold beforeLastDot
  rw [String.data_append, String.data_append]
  rw [show ".".data = ['.'] from rfl]
  rw [List.append_assoc, List.reverse_append]
  rw [show (['.'] ++ nm.data : List Char).reverse = nm.data.reverse ++ ['.'] from by simp]
  rw [List.append_assoc]
  rw [show (['.'] ++ X.data.reverse : List Char) = '.' :: X.data.reverse from rfl]
  rw [splitAtFirst_append_cons '.' nm.data.reverse X.data.reverse (by simpa using hdot)]
  simp

theorem joinCh_concat (c : Char) :
    ∀ (ls : List (List Char)) (x : List Char),
      joinCh c (ls ++ [x]) = if ls = [] then x else joinCh c ls ++ c :: x := by
  intro ls
  induction ls with
  | nil => intro x; simp [joinCh]
  | cons a rest ih =>
    intro x
    rw [if_neg (by simp)]
    cases rest with
    | nil => simp [joinCh]
    | cons b bs =>
      rw [List.cons_append]
      rw [show joinCh c (a :: ((b :: bs) ++ [x])) = a ++ c :: joinCh c ((b :: bs) ++ [x])
        from rfl]
      rw [ih x, if_neg (by simp)]
      rw [show joinCh c (a :: b :: bs) = a ++ c :: joinCh c (b :: bs) from rfl]
      simp

theorem dotJoin_concat (l : List String) (x : String) :
    dotJoin (l ++ [x]) = if l = [] then x else dotJoin l ++ "." ++ x := by
  apply strData_inj
  by_cases h : l = []
  · subst h
    simp [dotJoin, joinCh]
  · rw [if_neg h]
    simp only [dotJoin, List.map_append, List.map_cons, List.map_nil]
    rw [joinCh_concat '.' (l.map String.data) x.data,
      if_neg (by simpa using h)]
    simp [String.data_append]

theorem splitextRoot_py (nm : String) (hdot : '.' ∉ nm.data) (hne : nm.data ≠ []) :
    splitextRoot (nm ++ ".py") = nm := by
  unfold splitextRoot
  rw [String.data_append]
  rw [show ".py".data = '.' :: ['p', 'y'] from rfl]
  rw [List.reverse_append]
  rw [show ('.' :: ['p', 'y'] : List Char).reverse = 'y' :: 'p' :: '.' :: [] from rfl]
  rw [show ('y' :: 'p' :: '.' :: [] : List Char) ++ nm.data.reverse
      = ['y', 'p'] ++ '.' :: nm.data.reverse from rfl]
  rw [splitAtFirst_append_cons '.' ['y', 'p'] nm.data.reverse (by decide)]
  simp only [List.reverse_reverse]
  have hall : ¬((nm.data.all fun x => decide (x = '.')) = true) := by
    intro hall
    rw [List.all_eq_true] at hall
    cases hd : nm.data with
    | nil => exact hne hd
    | cons ch rest =>
      have hch : ch ∈ nm.data := by rw [hd]; simp
      have h2 := hall ch hch
      simp only [decide_eq_true_eq] at h2
      exact hdot (h2 ▸ hch)
  rw [if_neg hall]

end Codebase

namespace Codebase

theorem update_reference_table_fields (st : VState) (n : GraphNode) :
    (update_reference_table st n).graph_nodes = st.graph_nodes ∧
    (update_reference_table st n).module_id = st.module_id ∧
    (update_reference_table st n).current_parent_ids = st.current_parent_ids ∧
    (update_reference_table st n).imported_module_cache = st.imported_module_cache ∧
    (update_reference_table st n).source_file = st.source_file ∧
    (update_reference_table st n).find_package_source = st.find_package_source := by
  simp only [update_reference_table]
  refine ⟨?_, ?_, ?_, ?_, ?_, ?_⟩ <;> (split <;> first | rfl | (split <;> rfl))

theorem cpfp_concat (ps : List String) (nm : String)
    (hinit : nm ++ ".py" ≠ "__init__.py") (hdot : '.' ∉ nm.data) (hne : nm.data ≠ []) :
    compute_package_full_path (ps ++ [nm ++ ".py"]) = dotJoin (ps ++ [nm]) := by
  unfold compute_package_full_path
  rw [List.getLast?_concat]
  rw [if_neg (fun hcon => hinit (Option.some.inj hcon))]
  rw [List.dropLast_concat, List.getLastD_concat]
  rw [splitextRoot_py nm hdot hne]

theorem init_module_id (fps : String → Option String) (source_file : String)
    (ps : List String) (nm : String) (doc : Option String)
    (hbase : pyBasename source_file = nm ++ ".py")
    (hinit : nm ++ ".py" ≠ "__init__.py")
    (hdot : '.' ∉ nm.data) (hne : nm.data ≠ []) :
    (CodeVisitor.init fps source_file (ps ++ [nm ++ ".py"]) doc).module_id
      = "module:" ++ dotJoin (ps ++ [nm]) ++ "." ++ nm := by
  unfold CodeVisitor.init
  simp only [hbase, if_neg hinit, cpfp_concat ps nm hinit hdot hne,
    splitextRoot_py nm hdot hne, (update_reference_table_fields _ _).2.1]

/-- C10: for every source file whose basename is not `__init__.py`, the module id
computed at visitor construction is `module:<P>.<name>` where the path-derived
prefix `<P>` (from compute_package_full_path) itself already ends in `<name>`,
so the simple name appears twice in the id, and the package path later derived
from that id (`pkgOfId`, as in `nid.split(":", 1)[1].rsplit(".", 1)[0]`) ends
with the module's own name. -/
theorem module_id_repeats_module_name (fps : String → Option String)
    (source_file : String) (ps : List String) (nm : String) (doc : Option String)
    (hbase : pyBasename source_file = nm ++ ".py")
    (hinit : nm ++ ".py" ≠ "__init__.py")
    (hdot : '.' ∉ nm.data) (hne : nm.data ≠ []) :
    (∃ pre,
      (CodeVisitor.init fps source_file (ps ++ [nm ++ ".py"]) doc).module_id
        = "module:" ++ (pre ++ nm) ++ "." ++ nm) ∧
    pkgOfId (CodeVisitor.init fps source_file (ps ++ [nm ++ ".py"]) doc).module_id
      = dotJoin (ps ++ [nm]) ∧
    (∃ pre, dotJoin (ps ++ [nm]) = pre ++ nm) := by
  have hmid := init_module_id fps source_file ps nm doc hbase hinit hdot hne
  have hendnm : ∃ pre, dotJoin (ps ++ [nm]) = pre ++ nm := by
    rw [dotJoin_concat]
    by_cases h : ps = []
    · subst h
      refine ⟨"", ?_⟩
      simp only [reduceIte]
      apply strData_inj
      simp [String.data_append]
    · rw [if_neg h]
      exact ⟨dotJoin ps ++ ".", rfl⟩
  have hpkg : pkgOfId ("module:" ++ dotJoin (ps ++ [nm]) ++ "." ++ nm)
      = dotJoin (ps ++ [nm]) := by
    unfold pkgOfId
    rw [show "module:" ++ dotJoin (ps ++ [nm]) ++ "." ++ nm
        = "module:" ++ (dotJoin (ps ++ [nm]) ++ "." ++ nm) from by
      rw [String.append_assoc "module:" (dotJoin (ps ++ [nm])) ".",
        String.append_assoc "module:" (dotJoin (ps ++ [nm]) ++ ".") nm]]
    rw [afterColon_module]
    exact beforeLastDot_append _ nm hdot
  obtain ⟨pre, hpre⟩ := hendnm
  exact ⟨⟨pre, by rw [hmid, hpre]⟩, by rw [hmid, hpkg], pre, hpre⟩

/-- Witness for C10 on the concrete file `/r/pkg/mod.py` with relative parts
`["pkg", "mod.py"]`: the module id is `module:pkg.mod.mod`. -/
theorem module_id_repeats_module_name_witness :
    (∃ pre,
      (CodeVisitor.init (fun _ => none) "/r/pkg/mod.py" (["pkg"] ++ ["mod" ++ ".py"]) none).module_id
        = "module:" ++ (pre ++ "mod") ++ "." ++ "mod") ∧
    pkgOfId (CodeVisitor.init (fun _ => none) "/r/pkg/mod.py"
      (["pkg"] ++ ["mod" ++ ".py"]) none).module_id = dotJoin (["pkg"] ++ ["mod"]) ∧
    (∃ pre, dotJoin (["pkg"] ++ ["mod"]) = pre ++ "mod") :=
  module_id_repeats_module_name (fun _ => none) "/r/pkg/mod.py" ["pkg"] "mod" none
    (by decide) (by decide) (by decide) (by decide)

end Codebase

namespace Codebase

/-! ## Claim C6 -/

/-- Counterexample to C6 as stated: for the module at `pkg/mod.py`
containing `from .utils import helper`, the imported node's id is
`module:pkg.mod.utils.helper` — the doubled stem of the module id survives
the one-level walk-up — and the id `module:pkg.utils.helper` that the
claim announces is never created (pinned by
tests/test_helpers.py::test_visit_import_from). -/
theorem importFrom_counterexample_c6 :
    (lookupA "module:pkg.mod.utils.helper" c6State.graph_nodes).isSome = true ∧
    lookupA "module:pkg.utils.helper" c6State.graph_nodes = none := by
  exact ⟨rfl, rfl⟩

/-- The base-module computation of `visit_ImportFrom` for a one-level
relative import: split the module id's dotted path, drop its last segment,
re-join, and append the import's module fragment. -/
theorem importFromBase_level_one (st : VState) (parts : List String) (m : String)
    (hmid : st.module_id = "module:" ++ dotJoin parts)
    (hparts : parts ≠ [])
    (hdots : ∀ s ∈ parts, '.' ∉ s.data)
    (hm : m ≠ "") :
    importFromBase st 1 (some m) = dotJoin parts.dropLast ++ "." ++ m := by
  unfold importFromBase
  rw [if_pos (by exact Nat.one_pos)]
  rw [hmid, afterColon_module, splitDots_dotJoin parts hparts hdots]
  dsimp only
  rw [show parts.take (parts.length - 1) = parts.dropLast from
    (List.dropLast_eq_take parts).symm]
  rw [if_neg (fun hc => hm ((String.isEmpty_iff m).mp hc))]
  exact (String.append_assoc _ _ _).symm

/-- C6 (amended): for `from .<m> import <a>` (level 1), `visit_ImportFrom`
strips exactly one trailing segment from the dotted path of the *module
id* — a path that, per C10, already ends in the module's doubled stem —
and creates/links `module:<dropLast path>.<m>.<a>`.  For a module at
`pkg/mod.py` the module id is `module:pkg.mod.mod`, so the imported id is
`module:pkg.mod.utils.helper`, not the claim's `module:pkg.utils.helper`.
The target node exists afterwards and the module node gains the `Imports`
edge to it. -/
theorem visit_ImportFrom_strips_one_id_segment (st : VState) (parts : List String)
    (m a : String) (modNode : GraphNode)
    (hmid : st.module_id = "module:" ++ dotJoin parts)
    (hparts : parts ≠ [])
    (hdots : ∀ s ∈ parts, '.' ∉ s.data)
    (hm : m ≠ "")
    (hcache : lookupA (dotJoin parts.dropLast ++ "." ++ m ++ "." ++ a)
        st.imported_module_cache = none)
    (hmod : lookupA st.module_id st.graph_nodes = some modNode)
    (hneq : "module:" ++ (dotJoin parts.dropLast ++ "." ++ m ++ "." ++ a) ≠ st.module_id) :
    (lookupA ("module:" ++ (dotJoin parts.dropLast ++ "." ++ m ++ "." ++ a))
        (visit_ImportFrom st 1 (some m) [a]).graph_nodes).isSome = true ∧
    lookupA st.module_id (visit_ImportFrom st 1 (some m) [a]).graph_nodes =
      some { modNode with relationships := modNode.relationships ++
        [⟨.IMPORTS, st.module_id,
          "module:" ++ (dotJoin parts.dropLast ++ "." ++ m ++ "." ++ a),
          .MODULE, .MODULE⟩] } := by
  have hbase := importFromBase_level_one st parts m hmid hparts hdots hm
  have hbm : (dotJoin parts.dropLast ++ "." ++ m).isEmpty = false := by
    rw [Bool.eq_false_iff]
    intro hc
    have hdata := congrArg String.data ((String.isEmpty_iff _).mp hc)
    rw [String.data_append, String.data_append] at hdata
    simp at hdata
  unfold visit_ImportFrom
  rw [hbase, List.foldl_cons, List.foldl_nil]
  dsimp only
  rw [hbm]
  simp only [Bool.false_eq_true, if_false]
  rw [hcache, Option.getD_none]
  by_cases hfresh :
    (lookupA ("module:" ++ (dotJoin parts.dropLast ++ "." ++ m ++ "." ++ a))
      st.graph_nodes).isNone = true
  · rw [if_pos hfresh]
    unfold appendRel
    rw [(update_reference_table_fields _ _).2.1]
    rw [(update_reference_table_fields _ _).1]
    dsimp only
    rw [lookupA_insertA_ne _ _ _ (Ne.symm hneq), hmod]
    dsimp only
    constructor
    · rw [lookupA_insertA_ne _ _ _ hneq, lookupA_insertA_self]
      rfl
    · rw [lookupA_insertA_self]
  · rw [if_neg hfresh]
    unfold appendRel
    dsimp only
    rw [hmod]
    dsimp only
    constructor
    · rw [lookupA_insertA_ne _ _ _ hneq]
      cases hx : lookupA ("module:" ++ (dotJoin parts.dropLast ++ "." ++ m ++ "." ++ a))
          st.graph_nodes with
      | none => exact absurd (by rw [hx]; rfl) hfresh
      | some nd => rfl
    · rw [lookupA_insertA_self]

/-- Witness for the amended C6 on the module at `pkg/mod.py`: the imported
node `module:pkg.mod.utils.helper` is created and the module node
`module:pkg.mod.mod` gains the `Imports` edge. -/
theorem visit_ImportFrom_strips_one_id_segment_witness :
    (lookupA ("module:" ++ (dotJoin (["pkg", "mod", "mod"] : List String).dropLast
          ++ "." ++ "utils" ++ "." ++ "helper"))
        (visit_ImportFrom c6Init 1 (some "utils") ["helper"]).graph_nodes).isSome = true ∧
    lookupA c6Init.module_id (visit_ImportFrom c6Init 1 (some "utils") ["helper"]).graph_nodes =
      some { c6ModNode with relationships := c6ModNode.relationships ++
        [⟨.IMPORTS, c6Init.module_id,
          "module:" ++ (dotJoin (["pkg", "mod", "mod"] : List String).dropLast
            ++ "." ++ "utils" ++ "." ++ "helper"),
          .MODULE, .MODULE⟩] } :=
  visit_ImportFrom_strips_one_id_segment c6Init ["pkg", "mod", "mod"] "utils" "helper"
    c6ModNode rfl (by decide) (by decide) (by decide) rfl rfl (by decide)

end Codebase

namespace Codebase

/-! ## Claim C9 -/

/-- Counterexample to C9 as stated: `visit_Import` stores
`find_package_source`'s result as the imported node's source file, so when
the helper locates `os.py` — as it does for the standard library on a real
`sys.path` — the `module:os` node does *not* have "no source file in its
metadata". -/
theorem import_os_counterexample_c9 :
    ∃ nd, lookupA "module:os" c9State.graph_nodes = some nd ∧
      nd.name = "os" ∧ nd.metadata.source_file = some "/usr/lib/python3.11/os.py" :=
  ⟨_, rfl, rfl, rfl⟩

/-- C9 (amended): visiting `import <name>` with an uncached name and a
fresh target id creates the node `module:<name>` with simple name `name`,
node type Module, and source file equal to whatever `find_package_source`
returns for it (`None` only when the scan fails), and appends an `Imports`
edge from the current module node to it. -/
theorem visit_Import_records_package_source (st : VState) (name : String)
    (modNode : GraphNode)
    (hcache : lookupA name st.imported_module_cache = none)
    (hfresh : lookupA ("module:" ++ name) st.graph_nodes = none)
    (hmod : lookupA st.module_id st.graph_nodes = some modNode) :
    lookupA ("module:" ++ name) (visit_Import st [name]).graph_nodes =
      some { id := "module:" ++ name, name := name, node_type := .MODULE,
             metadata := { source_file := st.find_package_source name, docstring := none } } ∧
    lookupA st.module_id (visit_Import st [name]).graph_nodes =
      some { modNode with relationships := modNode.relationships ++
        [⟨.IMPORTS, st.module_id, "module:" ++ name, .MODULE, .MODULE⟩] } := by
  have hne : st.module_id ≠ "module:" ++ name := by
    intro h
    rw [h, hfresh] at hmod
    exact Option.noConfusion hmod
  unfold visit_Import
  rw [List.foldl_cons, List.foldl_nil]
  dsimp only
  rw [hcache, Option.getD_none]
  rw [hfresh]
  simp only [Option.isNone_none, reduceIte]
  unfold appendRel
  rw [(update_reference_table_fields _ _).2.1]
  rw [(update_reference_table_fields _ _).1]
  dsimp only
  rw [lookupA_insertA_ne _ _ _ hne, hmod]
  dsimp only
  constructor
  · rw [lookupA_insertA_ne _ _ _ (Ne.symm hne), lookupA_insertA_self]
  · rw [lookupA_insertA_self]

/-- Witness for the amended C9 on the module at `pkg/mod.py` importing
`os`: `module:os` is created carrying the oracle's answer and the module
node gains the `Imports` edge. -/
theorem visit_Import_records_package_source_witness :
    lookupA ("module:" ++ "os") (visit_Import c6Init ["os"]).graph_nodes =
      some { id := "module:" ++ "os", name := "os", node_type := .MODULE,
             metadata := { source_file := c6Init.find_package_source "os",
                           docstring := none } } ∧
    lookupA c6Init.module_id (visit_Import c6Init ["os"]).graph_nodes =
      some { c6ModNode with relationships := c6ModNode.relationships ++
        [⟨.IMPORTS, c6Init.module_id, "module:" ++ "os", .MODULE, .MODULE⟩] } :=
  visit_Import_records_package_source c6Init "os" c6ModNode rfl rfl rfl

end Codebase

namespace Codebase

/-! ## Claim C8 -/

/-- Counterexample to C8 as stated: after visiting `@d def f(): ...` in
`t.py`, the node `function:t.f` holds the `Decorates` edge whose
`source_node_id` is `function:t.d` — not its own id.  `handle_decorators`
appends decoration edges to the *decorated* node. -/
theorem decorates_edge_on_target_counterexample :
    ∃ nd, lookupA "function:t.f" c8State.graph_nodes = some nd ∧
      nd.id = "function:t.f" ∧
      nd.relationships =
        [⟨.DECORATES, "function:t.d", "function:t.f", .FUNCTION, .FUNCTION⟩] ∧
      "function:t.d" ≠ "function:t.f" :=
  ⟨_, rfl, rfl, rfl, by decide⟩

theorem mem_insertA {α : Type} (k : String) (v : α) (p : String × α) :
    ∀ l : List (String × α), p ∈ insertA k v l → p = (k, v) ∨ p ∈ l := by
  intro l
  induction l with
  | nil => intro h; simp [insertA] at h; exact Or.inl h
  | cons q rest ih =>
    intro h
    by_cases hq : q.1 = k
    · rw [insertA, if_pos hq] at h
      rcases List.mem_cons.mp h with h1 | h2
      · exact Or.inl h1
      · exact Or.inr (List.mem_cons_of_mem _ h2)
    · rw [insertA, if_neg hq] at h
      rcases List.mem_cons.mp h with h1 | h2
      · exact Or.inr (h1 ▸ List.mem_cons_self _ _)
      · rcases ih h2 with h3 | h4
        · exact Or.inl h3
        · exact Or.inr (List.mem_cons_of_mem _ h4)

theorem lookupA_mem {α : Type} (k : String) (v : α) :
    ∀ l : List (String × α), lookupA k l = some v → (k, v) ∈ l := by
  intro l
  induction l with
  | nil => intro h; exact Option.noConfusion h
  | cons q rest ih =>
    intro h
    by_cases hq : q.1 = k
    · rw [lookupA, if_pos hq] at h
      have : q = (k, v) := by
        cases q; cases h; cases hq; rfl
      exact this ▸ List.mem_cons_self _ _
    · rw [lookupA, if_neg hq] at h
      exact List.mem_cons_of_mem _ (ih h)

theorem relInv_insertA (gn : List (String × GraphNode)) (key : String)
    (node : GraphNode) (h : RelInv gn) (hid : node.id = key)
    (hrel : ∀ e ∈ node.relationships, goodEdge node.id e) :
    RelInv (insertA key node gn) := by
  intro p hp
  rcases mem_insertA key node p gn hp with heq | hmem
  · subst heq; exact ⟨hid, hrel⟩
  · exact h p hmem

theorem relInv_appendRel (st : VState) (key : String) (e : GraphEdge)
    (he : goodEdge key e) (h : RelInv st.graph_nodes) :
    RelInv (appendRel st key e).graph_nodes := by
  unfold appendRel
  cases hx : lookupA key st.graph_nodes with
  | none => exact h
  | some node =>
    have hmem := lookupA_mem key node st.graph_nodes hx
    obtain ⟨hid, hrels⟩ := h (key, node) hmem
    dsimp only
    apply relInv_insertA st.graph_nodes key
      { node with relationships := node.relationships ++ [e] } h hid
    intro e' he'
    rcases List.mem_append.mp he' with h1 | h2
    · exact hrels e' h1
    · rw [List.mem_singleton.mp h2, hid]
      exact he

theorem relInv_update_reference_table (st : VState) (n : GraphNode)
    (h : RelInv st.graph_nodes) :
    RelInv (update_reference_table st n).graph_nodes := by
  rw [(update_reference_table_fields st n).1]
  exact h

theorem relInv_add_node (st : VState) (node : GraphNode)
    (hrel : ∀ e ∈ node.relationships, goodEdge node.id e)
    (h : RelInv st.graph_nodes) :
    RelInv (add_node st node).graph_nodes := by
  unfold add_node
  dsimp only
  have h2 : RelInv (update_reference_table
      { st with graph_nodes := insertA node.id node st.graph_nodes } node).graph_nodes :=
    relInv_update_reference_table _ _ (relInv_insertA st.graph_nodes node.id node h rfl hrel)
  split
  · exact h2
  · split
    · exact h2
    · split
      · exact relInv_appendRel _ _ _ (Or.inl rfl) h2
      · exact h2

theorem relInv_visit_Import_single (st : VState) (n : String)
    (h : RelInv st.graph_nodes) :
    RelInv (visit_Import st [n]).graph_nodes := by
  unfold visit_Import
  rw [List.foldl_cons, List.foldl_nil]
  dsimp only
  refine relInv_appendRel _ _ _ ?_ ?_
  · exact Or.inl rfl
  split
  · exact relInv_update_reference_table _ _
      (relInv_insertA st.graph_nodes _ _ h rfl (fun e he => absurd he (List.not_mem_nil e)))
  · exact h

theorem visit_Import_cons (st : VState) (n : String) (ns : List String) :
    visit_Import st (n :: ns) = visit_Import (visit_Import st [n]) ns := by
  unfold visit_Import
  rw [List.foldl_cons, List.foldl_cons, List.foldl_nil]

theorem relInv_visit_Import (st : VState) (names : List String)
    (h : RelInv st.graph_nodes) :
    RelInv (visit_Import st names).graph_nodes := by
  induction names generalizing st with
  | nil => exact h
  | cons n ns ih =>
    rw [visit_Import_cons]
    exact ih _ (relInv_visit_Import_single st n h)

theorem relInv_visit_ImportFrom_single (st : VState) (base_module : String) (n : String)
    (h : RelInv st.graph_nodes) :
    RelInv ((fun st aliasName =>
      let imported_module :=
        if base_module.isEmpty then aliasName else base_module ++ "." ++ aliasName
      let imported_module_id :=
        (lookupA imported_module st.imported_module_cache).getD
          ("module:" ++ imported_module)
      let cache := insertA imported_module imported_module_id st.imported_module_cache
      let st := { st with imported_module_cache := cache }
      let module_source_file := st.find_package_source imported_module
      let st :=
        if (lookupA imported_module_id st.graph_nodes).isNone then
          let node : GraphNode :=
            { id := imported_module_id, name := imported_module, node_type := .MODULE,
              metadata := { source_file := module_source_file, docstring := none } }
          let st := { st with graph_nodes := insertA imported_module_id node st.graph_nodes }
          update_reference_table st node
        else st
      appendRel st st.module_id
        ⟨.IMPORTS, st.module_id, imported_module_id, .MODULE, .MODULE⟩) st n).graph_nodes := by
  dsimp only
  refine relInv_appendRel _ _ _ ?_ ?_
  · exact Or.inl rfl
  split
  all_goals
    split
    · exact relInv_update_reference_table _ _
        (relInv_insertA st.graph_nodes _ _ h rfl (fun e he => absurd he (List.not_mem_nil e)))
    · exact h

theorem relInv_visit_ImportFrom (st : VState) (level : Nat) (module : Option String)
    (names : List String) (h : RelInv st.graph_nodes) :
    RelInv (visit_ImportFrom st level module names).graph_nodes := by
  unfold visit_ImportFrom
  dsimp only
  generalize importFromBase st level module = bm
  induction names generalizing st with
  | nil => exact h
  | cons n ns ih =>
    rw [List.foldl_cons]
    exact ih _ (relInv_visit_ImportFrom_single st bm n h)

theorem relInv_ite (c : Prop) [Decidable c] (a b : VState)
    (ha : RelInv a.graph_nodes) (hb : RelInv b.graph_nodes) :
    RelInv (if c then a else b).graph_nodes := by
  split
  · exact ha
  · exact hb

theorem relInv_visitCallLogic (st : VState) (f : CallFunc)
    (h : RelInv st.graph_nodes) :
    RelInv (visitCallLogic st f).graph_nodes := by
  unfold visitCallLogic
  exact relInv_ite _ _ _ (relInv_appendRel _ _ _ (Or.inl rfl) h) h

theorem relInv_handle_decorator (st : VState) (tid : String) (d : PyExpr)
    (h : RelInv st.graph_nodes) :
    RelInv (handle_decorator st tid d).graph_nodes :=
  match d with
  | .name _ => relInv_appendRel _ _ _ (Or.inr ⟨rfl, rfl⟩) h
  | .attribute _ _ => relInv_appendRel _ _ _ (Or.inr ⟨rfl, rfl⟩) h
  | .call _ _ => h
  | .constant => h

theorem relInv_handle_decorators (st : VState) (ds : List PyExpr) (tid : String)
    (h : RelInv st.graph_nodes) :
    RelInv (handle_decorators st ds tid).graph_nodes := by
  unfold handle_decorators
  induction ds generalizing st with
  | nil => exact h
  | cons d ds ih =>
    rw [List.foldl_cons]
    exact ih _ (relInv_handle_decorator st tid d h)

mutual

theorem relInv_visitExpr (st : VState) (e : PyExpr) (h : RelInv st.graph_nodes) :
    RelInv (visitExpr st e).graph_nodes :=
  match e with
  | .call f args => relInv_visitExprList _ args (relInv_visitCallLogic st f h)
  | .name _ => h
  | .attribute _ _ => h
  | .constant => h

theorem relInv_visitExprList (st : VState) (es : List PyExpr)
    (h : RelInv st.graph_nodes) : RelInv (visitExprList st es).graph_nodes :=
  match es with
  | [] => h
  | e :: es => relInv_visitExprList _ es (relInv_visitExpr st e h)

end

mutual

theorem relInv_visitStmt (st : VState) (s : PyStmt) (h : RelInv st.graph_nodes) :
    RelInv (visitStmt st s).graph_nodes :=
  match s with
  | .imprt names => relInv_visit_Import st names h
  | .importFrom level module names => relInv_visit_ImportFrom st level module names h
  | .classDef name bases decorators docstring body => by
    rw [visitStmt]
    split
    · exact h
    · exact relInv_visitExprList _ decorators
        (relInv_visitStmtList _ body
          (relInv_handle_decorators _ decorators _
            (relInv_add_node st _ (fun e he => absurd he (List.not_mem_nil e)) h)))
  | .funcDef name decorators docstring body => by
    rw [visitStmt]
    split
    · exact h
    · refine relInv_visitExprList _ decorators
        (relInv_visitStmtList _ body
          (relInv_handle_decorators _ decorators _ ?_))
      split
      · exact relInv_appendRel _ _ _ (Or.inl rfl)
          (relInv_add_node st _ (fun e he => absurd he (List.not_mem_nil e)) h)
      · exact relInv_add_node st _ (fun e he => absurd he (List.not_mem_nil e)) h
  | .exprStmt e => relInv_visitExpr st e h

theorem relInv_visitStmtList (st : VState) (ss : List PyStmt)
    (h : RelInv st.graph_nodes) : RelInv (visitStmtList st ss).graph_nodes :=
  match ss with
  | [] => h
  | s :: ss => relInv_visitStmtList _ ss (relInv_visitStmt st s h)

end

theorem relInv_init (fps : String → Option String) (sf : String)
    (relParts : List String) (doc : Option String) :
    RelInv (CodeVisitor.init fps sf relParts doc).graph_nodes := by
  unfold CodeVisitor.init
  dsimp only
  apply relInv_update_reference_table
  intro p hp
  rcases List.mem_singleton.mp hp with rfl
  exact ⟨rfl, fun e he => absurd he (List.not_mem_nil e)⟩

/-- C8 (amended): after any visitor run (arbitrary module contents over
imports, class/function definitions, calls and decorator handling, from
any constructor-produced start state), every stored node's id equals its
key and every edge in its `relationships` list either has the node's own
id as `source_node_id` or is a `Decorates` edge whose `target_node_id` is
the node's own id — the latter being the one systematic exception to the
claim. -/
theorem visitor_edge_ownership (fps : String → Option String) (sf : String)
    (relParts : List String) (doc : Option String) (m : PyModule) :
    RelInv (visitModule (CodeVisitor.init fps sf relParts doc) m).graph_nodes :=
  relInv_visitStmtList _ m.body (relInv_init fps sf relParts doc)

end Codebase
